import Mathlib

/-!
Verification development for the pdu-codec repository: a shallow embedding of
the PduBuilder (src/PduBuilder.ts) and PduParser (src/PduParser.ts) classes
together with the hex utilities (src/utils.ts), and theorems about the
round-trip, invariant and error-handling behaviour of the codec.

Modelling conventions:
* JavaScript strings are modelled by their sequences of Unicode code points
  (List Nat); byte buffers by List Nat with every entry < 256.
* The bytebuffer library operations used by the source (writeUintN, readUintN,
  writeUTF8String, writeCString, readUTF8String, readCString, readBytes,
  append, toHex, wrap) are modelled by their documented semantics, with the
  noAssert = false checks the source enables (in particular writeCString
  rejects strings that contain NUL characters, and reads past the limit
  throw).
* Thrown exceptions are modelled with Except.  PduBuilder throws plain Error
  objects that carry only a message string; PduParser throws PduParserError
  objects that capture the parser, and therefore its current offset, which the
  embedding records in the PErr.pduParserError constructor.  Exceptions of
  other kinds reaching the parser (bytebuffer range errors, user callback
  throws) are modelled by PErr.externalError.
* The in-place mutation of the parser is modelled by explicit state passing in
  which the state at the moment an exception is thrown is returned alongside
  the error, mirroring the fact that a caught exception leaves the mutated
  parser behind.
* The while (true) loop of PduParser.repeat is modelled with an explicit fuel
  parameter; all theorems supply sufficient fuel.
-/

/-- Endianness, from src/types.ts. -/
inductive Endian
  | big
  | little
deriving DecidableEq

/-- The BitLength type of src/types.ts: 8, 16 or 32 bits. -/
inductive BitLength
  | b8
  | b16
  | b32
deriving DecidableEq

/-- Number of bits of a BitLength. -/
def BitLength.bits : BitLength → Nat
  | .b8 => 8
  | .b16 => 16
  | .b32 => 32

/-- Number of bytes of a BitLength. -/
def BitLength.bytes : BitLength → Nat
  | .b8 => 1
  | .b16 => 2
  | .b32 => 4

/-- The `BitLength | 0` option type used for length words: none models 0. -/
abbrev LengthBits := Option BitLength

/-- getMaxValue from src/PduBuilder.ts: `Math.pow(2, bits || 32) - 1`. -/
def getMaxValue (bits : LengthBits) : Nat :=
  2 ^ (match bits with
    | none => 32
    | some b => b.bits) - 1

/-! ## Hex strings (src/utils.ts and ByteBuffer.toHex / ByteBuffer.wrap) -/

/-- Value of a hex digit character, lower or upper case. -/
def hexDigitVal (c : Char) : Option Nat :=
  let n := c.toNat
  if 48 ≤ n ∧ n ≤ 57 then some (n - 48)
  else if 97 ≤ n ∧ n ≤ 102 then some (n - 87)
  else if 65 ≤ n ∧ n ≤ 70 then some (n - 55)
  else none

/-- Lower-case hex digit character for a value < 16. -/
def toHexDigit (n : Nat) : Char :=
  Char.ofNat (if n < 10 then 48 + n else 87 + n)

/-- Two lower-case hex digits of one byte. -/
def byteToHex (b : Nat) : List Char :=
  [toHexDigit (b / 16 % 16), toHexDigit (b % 16)]

/-- Render a byte list as a lower-case hex string (ByteBuffer.toHex). -/
def bytesToHex (bs : List Nat) : String :=
  ⟨(bs.map byteToHex).flatten⟩

/-- Decode consecutive pairs of hex digits into bytes (used once validity and
even length are established). -/
def hexPairs : List Char → List Nat
  | c1 :: c2 :: rest => (((hexDigitVal c1).getD 0) * 16 + ((hexDigitVal c2).getD 0)) :: hexPairs rest
  | _ => []

/-- parseHex from src/utils.ts: reject the input at the first non-hex-digit
character or when the length is odd, otherwise decode pairs of digits. -/
def parseHex (hex : String) : Except String (List Nat) :=
  match hex.data.findIdx? (fun c => (hexDigitVal c).isNone) with
  | some i => .error ("Invalid hex data at byte " ++ toString (i / 2))
  | none =>
    if hex.data.length % 2 = 1 then .error ("Invalid hex data; length must be even")
    else .ok (hexPairs hex.data)

/-! ## UTF-8 (the utfx codec used by bytebuffer) -/

/-- UTF-8 encoding of one Unicode code point, as the utfx encoder used by
bytebuffer produces it.  Shift/mask operations are written with division and
remainder by powers of two, to which they are equal on these ranges. -/
def utf8EncodeChar (c : Nat) : List Nat :=
  if c < 128 then [c]
  else if c < 2048 then [192 + c / 64, 128 + c % 64]
  else if c < 65536 then [224 + c / 4096, 128 + c / 64 % 64, 128 + c % 64]
  else [240 + c / 262144, 128 + c / 4096 % 64, 128 + c / 64 % 64, 128 + c % 64]

/-- UTF-8 encoding of a code point sequence. -/
def utf8Encode (cps : List Nat) : List Nat :=
  (cps.map utf8EncodeChar).flatten

/-- Decode one UTF-8 encoded code point from the front of a byte list,
returning the code point and the remaining bytes. -/
def utf8DecodeChar : List Nat → Option (Nat × List Nat)
  | [] => none
  | b0 :: rest =>
    if b0 < 128 then some (b0, rest)
    else if b0 < 192 then none
    else if b0 < 224 then
      match rest with
      | b1 :: r =>
        if 128 ≤ b1 ∧ b1 < 192 then some ((b0 - 192) * 64 + (b1 - 128), r) else none
      | [] => none
    else if b0 < 240 then
      match rest with
      | b1 :: b2 :: r =>
        if (128 ≤ b1 ∧ b1 < 192) ∧ (128 ≤ b2 ∧ b2 < 192) then
          some ((b0 - 224) * 4096 + (b1 - 128) * 64 + (b2 - 128), r)
        else none
      | _ => none
    else if b0 < 248 then
      match rest with
      | b1 :: b2 :: b3 :: r =>
        if (128 ≤ b1 ∧ b1 < 192) ∧ (128 ≤ b2 ∧ b2 < 192) ∧ (128 ≤ b3 ∧ b3 < 192) then
          some ((b0 - 240) * 262144 + (b1 - 128) * 4096 + (b2 - 128) * 64 + (b3 - 128), r)
        else none
      | _ => none
    else none

/-- Decode a whole byte list as UTF-8 code points; the fuel argument bounds
the number of decoded characters (each character consumes at least one byte,
so fuel equal to the byte count always suffices). -/
def utf8DecodeAux : Nat → List Nat → Option (List Nat)
  | _, [] => some []
  | 0, _ :: _ => none
  | fuel + 1, b :: bs =>
    match utf8DecodeChar (b :: bs) with
    | some (c, rest) => (utf8DecodeAux fuel rest).map (c :: ·)
    | none => none

/-- Decode a whole byte list as UTF-8 code points. -/
def utf8Decode (l : List Nat) : Option (List Nat) :=
  utf8DecodeAux l.length l

/-- Code points of a Lean string literal (JS strings are modelled by their
code point sequences). -/
def strCps (s : String) : List Nat :=
  s.data.map Char.toNat

/-! ## PduBuilder (src/PduBuilder.ts) -/

/-- The mutable state of a PduBuilder: the backing buffer bytes, the cursor
(buf.offset), the stored high-water mark (the private _length field), the
mark table and the endianness. -/
structure BState where
  data : List Nat
  offset : Nat
  hwm : Nat
  marks : List (String × Nat)
  endian : Endian
deriving DecidableEq

/-- A fresh builder (the constructor; initialSize only pre-allocates and the
optional limit is not exercised by any claim). -/
def emptyBuilder (endian : Endian) : BState :=
  ⟨[], 0, 0, [], endian⟩

/-- The length getter: updates _length to max(_length, offset) and returns
it, so the observable logical length is always max hwm offset. -/
def BState.length (b : BState) : Nat :=
  max b.hwm b.offset

/-- The offset setter: reading this.length first commits the high-water mark,
then a position beyond it is rejected. -/
def BState.setOffset (b : BState) (pos : Nat) : Except String BState :=
  if pos > b.length then .error ("Cannot set position beyond current length")
  else .ok { b with hwm := b.length, offset := pos }

/-- Write one byte at the cursor (Uint8Array element assignment truncates to
one byte), advancing the cursor; positions beyond the written one are kept. -/
def BState.writeByte (b : BState) (v : Nat) : BState :=
  { b with
    data := b.data.take b.offset ++ [v % 256] ++ b.data.drop (b.offset + 1),
    offset := b.offset + 1 }

/-- Write a list of bytes at the cursor. -/
def BState.writeBytes (b : BState) (vs : List Nat) : BState :=
  vs.foldl BState.writeByte b

/-- The bytes of an unsigned number of the given width in the given byte
order (writeUint8 / writeUint16 / writeUint32). -/
def numBytes (bits : BitLength) (endian : Endian) (v : Nat) : List Nat :=
  let be := match bits with
    | .b8 => [v % 256]
    | .b16 => [v / 256 % 256, v % 256]
    | .b32 => [v / 16777216 % 256, v / 65536 % 256, v / 256 % 256, v % 256]
  match endian with
  | .big => be
  | .little => be.reverse

/-- PduBuilder.writeNumber: range-check the value against 2^bits - 1 and
write its bytes. -/
def PduBuilder.writeNumber (b : BState) (v : Int) (bits : BitLength) : Except String BState :=
  if v < 0 ∨ v > (getMaxValue (some bits) : Int) then
    .error ("Invalid uint" ++ toString bits.bits ++ " value " ++ toString v)
  else
    .ok (b.writeBytes (numBytes bits b.endian v.toNat))

/-- PduBuilder.number: write each value in turn. -/
def PduBuilder.number : BState → BitLength → List Int → Except String BState
  | b, _, [] => .ok b
  | b, bits, v :: vs =>
    match PduBuilder.writeNumber b v bits with
    | .error e => .error e
    | .ok b1 => PduBuilder.number b1 bits vs

/-- PduBuilder.saveMark: record the current cursor under the identifier
(later entries shadow earlier ones, like assignment into the record). -/
def PduBuilder.saveMark (b : BState) (id : String) : BState :=
  { b with marks := (id, b.offset) :: b.marks }

/-- PduBuilder.loadMark: look the identifier up and reposition the cursor. -/
def PduBuilder.loadMark (b : BState) (id : String) : Except String BState :=
  match b.marks.find? (fun p => p.1 = id) with
  | none => .error ("No such mark " ++ id)
  | some p => b.setOffset p.2

/-- PduBuilder.end: reposition the cursor to the current logical length. -/
def PduBuilder.endOfBuf (b : BState) : Except String BState :=
  b.setOffset b.length

/-- Options of PduBuilder.string; maxLength? = none models an absent
maxLength argument, whose default is getMaxValue lengthBits. -/
structure BStringOpts where
  lengthBits : LengthBits := some .b8
  minLength : Int := 0
  maxLength? : Option Int := none
  nullTerminate : Bool := false

/-- The scratch buffer contents of PduBuilder.string: the UTF-8 bytes of the
string, with a trailing NUL when writeCString was used. -/
def stringBytes (cps : List Nat) (nullTerminate : Bool) : List Nat :=
  if nullTerminate then utf8Encode cps ++ [0] else utf8Encode cps

/-- PduBuilder.string: validate the min/max configuration, encode the string
into a scratch buffer (writeCString adds a trailing NUL and rejects strings
containing NUL; writeUTF8String does neither), validate the encoded byte
length, then write the optional length word followed by the scratch bytes. -/
def PduBuilder.string (b : BState) (cps : List Nat) (o : BStringOpts) : Except String BState :=
  if o.minLength < 0 ∨ (o.maxLength?.getD (getMaxValue o.lengthBits) : Int) > (getMaxValue o.lengthBits : Int) ∨
      (o.maxLength?.getD (getMaxValue o.lengthBits) : Int) < o.minLength then
    .error ("Invalid min or max length")
  else if o.nullTerminate ∧ (0 : Nat) ∈ cps then
    .error ("Illegal str: Contains NULL-characters")
  else if ((stringBytes cps o.nullTerminate).length : Int) < o.minLength ∨
      ((stringBytes cps o.nullTerminate).length : Int) >
        (o.maxLength?.getD (getMaxValue o.lengthBits) : Int) then
    .error ("Invalid string length " ++ toString (stringBytes cps o.nullTerminate).length ++
      "; expected [" ++ toString o.minLength ++ ".." ++
      toString (o.maxLength?.getD (getMaxValue o.lengthBits) : Int) ++ "]")
  else
    match o.lengthBits with
    | some bits =>
      match PduBuilder.writeNumber b (stringBytes cps o.nullTerminate).length bits with
      | .error e => .error e
      | .ok b1 => .ok (b1.writeBytes (stringBytes cps o.nullTerminate))
    | none => .ok (b.writeBytes (stringBytes cps o.nullTerminate))

/-- Options of PduBuilder.hex. -/
structure BHexOpts where
  lengthBits : LengthBits := some .b8
  minLength : Int := 0
  maxLength? : Option Int := none

/-- PduBuilder.hex on an already decoded byte list (the Buffer overload):
validate the byte count, write the optional length word, append the bytes. -/
def PduBuilder.hexBytes (b : BState) (bs : List Nat) (o : BHexOpts) : Except String BState :=
  if (bs.length : Int) < o.minLength ∨
      (bs.length : Int) > (o.maxLength?.getD (getMaxValue o.lengthBits) : Int) then
    .error ("Invalid data length " ++ toString bs.length ++ "; expected [" ++
      toString o.minLength ++ ".." ++ toString (o.maxLength?.getD (getMaxValue o.lengthBits) : Int) ++ "]")
  else
    match o.lengthBits with
    | some bits =>
      match PduBuilder.writeNumber b bs.length bits with
      | .error e => .error e
      | .ok b1 => .ok (if bs.length > 0 then b1.writeBytes bs else b1)
    | none => .ok (if bs.length > 0 then b.writeBytes bs else b)

/-- PduBuilder.hex on a hex string: decode it with parseHex first. -/
def PduBuilder.hex (b : BState) (h : String) (o : BHexOpts) : Except String BState :=
  match parseHex h with
  | .error e => .error e
  | .ok bs => PduBuilder.hexBytes b bs o

/-- PduBuilder.build: the byte range [0, logical length) as lower-case hex. -/
def PduBuilder.build (b : BState) : String :=
  bytesToHex (b.data.take b.length)

/-! ## PduParser (src/PduParser.ts, current version) -/

/-- Decoded field values: numbers, number arrays, strings (as code points)
and hex strings. -/
inductive Value
  | num (n : Nat)
  | nums (l : List Nat)
  | str (cps : List Nat)
  | hexs (h : String)
deriving DecidableEq

/-- The accumulating field-value record (this.value), in insertion order. -/
abbrev Record := List (String × Value)

/-- Overwrite-or-append one key, as property assignment on a JS object does:
an existing key keeps its position and gets the new value, a new key is
appended. -/
def setK (r : Record) (k : String) (v : Value) : Record :=
  if r.any (fun p => p.1 = k) then
    r.map (fun p => if p.1 = k then (k, v) else p)
  else r ++ [(k, v)]

/-- Object.assign(this.value, u): assign the keys of u in order. -/
def assignRec (r : Record) (u : Record) : Record :=
  u.foldl (fun acc p => setK acc p.1 p.2) r

/-- Look a key up in a record. -/
def lookupR (r : Record) (k : String) : Option Value :=
  (r.find? (fun p => p.1 = k)).map (fun p => p.2)

/-- Errors reaching PduParser callers: PduParserError carries the parser and
hence the byte offset current when fail() ran; other exceptions (bytebuffer
range errors, exceptions thrown by user callbacks) carry only a message. -/
inductive PErr
  | pduParserError (msg : String) (offset : Nat)
  | externalError (msg : String)
deriving DecidableEq

/-- The byte offset an error carries, when it carries one. -/
def PErr.offset? : PErr → Option Nat
  | .pduParserError _ o => some o
  | .externalError _ => none

/-- The mutable state of a PduParser: the wrapped input bytes, the read
cursor and the accumulating record. -/
structure PState where
  input : List Nat
  offset : Nat
  value : Record
  endian : Endian
deriving DecidableEq

/-- PduParser.parse: wrap the hex input (ByteBuffer.wrap validates it) and
start at offset 0 with the given initial record. -/
def PduParser.parseStart (hex : String) (endian : Endian := .big) (target : Record := []) :
    Except String PState :=
  (parseHex hex).map (fun bs => ⟨bs, 0, target, endian⟩)

/-- Combine big-endian bytes into a number. -/
def bytesToNum (bs : List Nat) : Nat :=
  bs.foldl (fun acc b => acc * 256 + b) 0

/-- readUintN: the next bits/8 input bytes combined in the configured byte
order. -/
def decodeNum (_bits : BitLength) (endian : Endian) (bs : List Nat) : Nat :=
  match endian with
  | .big => bytesToNum bs
  | .little => bytesToNum bs.reverse

/-- PduParser.readNumber: read one word, failing (without consuming) with a
PduParserError that records the current offset when too few bytes remain. -/
def PduParser.readNumber (bits : BitLength) (s : PState) : PState × Except PErr Nat :=
  if s.offset + bits.bytes ≤ s.input.length then
    ({ s with offset := s.offset + bits.bytes },
      .ok (decodeNum bits s.endian ((s.input.drop s.offset).take bits.bytes)))
  else
    (s, .error (.pduParserError ("Could not read uint" ++ toString bits.bits ++
      " at position " ++ toString s.offset) s.offset))

/-- What a reader callback returns: a partial record to merge, nothing, the
parser itself (a branching read whose nested reads already updated the
state), or an exception it threw. -/
inductive ReaderRes
  | merge (u : Record)
  | void
  | self
  | raise (e : PErr)

/-- A reader callback: receives the decoded value, the current record and
the parser (modelled by the state, which it may advance through nested
reads), and produces a state together with its result. -/
def Reader (α : Type) : Type :=
  α → Record → PState → PState × ReaderRes

/-- simpleReader for a number-valued property name. -/
def simpleReaderN (name : String) : Reader Nat :=
  fun x _ s => (s, .merge [(name, .num x)])

/-- simpleReader for a number-array-valued property name. -/
def simpleReaderA (name : String) : Reader (List Nat) :=
  fun x _ s => (s, .merge [(name, .nums x)])

/-- simpleReader for a string-valued property name. -/
def simpleReaderS (name : String) : Reader (List Nat) :=
  fun x _ s => (s, .merge [(name, .str x)])

/-- simpleReader for a hex-valued property name. -/
def simpleReaderH (name : String) : Reader String :=
  fun x _ s => (s, .merge [(name, .hexs x)])

/-- PduParser.parse (the private merge step every primitive read funnels
through): run the reader; merge a returned mapping into the record with
Object.assign, do nothing for a void result or when the reader returned the
parser instance, propagate an exception the reader threw. -/
def PduParser.parsePrim {α : Type} (reader : Reader α) (data : α) (s : PState) :
    PState × Except PErr Unit :=
  match reader data s.value s with
  | (t, .merge u) => ({ t with value := assignRec t.value u }, .ok ())
  | (t, .void) => (t, .ok ())
  | (t, .self) => (t, .ok ())
  | (t, .raise e) => (t, .error e)

/-- PduParser.number / uint8 / uint16 / uint32 with a single-value reader. -/
def PduParser.numberRead (bits : BitLength) (reader : Reader Nat) (s : PState) :
    PState × Except PErr Unit :=
  match PduParser.readNumber bits s with
  | (t, .ok v) => PduParser.parsePrim reader v t
  | (t, .error e) => (t, .error e)

/-- Read count words in sequence. -/
def PduParser.readNumbersAux (bits : BitLength) : Nat → PState → PState × Except PErr (List Nat)
  | 0, s => (s, .ok [])
  | count + 1, s =>
    match PduParser.readNumber bits s with
    | (t, .error e) => (t, .error e)
    | (t, .ok v) =>
      match PduParser.readNumbersAux bits count t with
      | (t2, .error e) => (t2, .error e)
      | (t2, .ok vs) => (t2, .ok (v :: vs))

/-- PduParser.number / uintN with a count and an array reader. -/
def PduParser.numberReadN (bits : BitLength) (count : Nat) (reader : Reader (List Nat))
    (s : PState) : PState × Except PErr Unit :=
  match PduParser.readNumbersAux bits count s with
  | (t, .ok vs) => PduParser.parsePrim reader vs t
  | (t, .error e) => (t, .error e)

/-- Index of the first zero byte of a list, if any. -/
def findZero : List Nat → Option Nat
  | [] => none
  | b :: rest => if b = 0 then some 0 else (findZero rest).map (· + 1)

/-- PduParser.readString with a byte count (readUTF8String with byte
metrics): take that many bytes and decode them as UTF-8; running out of
input or hitting malformed UTF-8 raises a PduParserError at the current
offset. -/
def PduParser.readUTF8 (strlen : Nat) (s : PState) : PState × Except PErr (List Nat) :=
  if s.offset + strlen ≤ s.input.length then
    match utf8Decode ((s.input.drop s.offset).take strlen) with
    | some cps => ({ s with offset := s.offset + strlen }, .ok cps)
    | none => (s, .error (.pduParserError ("Could not read string at position " ++
        toString s.offset) s.offset))
  else
    (s, .error (.pduParserError ("Could not read string at position " ++
      toString s.offset) s.offset))

/-- PduParser.readString without a byte count (readCString): scan for the
next zero byte, decode the bytes before it and consume the terminator;
reaching the end of input without a zero byte raises at the current
offset. -/
def PduParser.readCStr (s : PState) : PState × Except PErr (List Nat) :=
  match findZero (s.input.drop s.offset) with
  | some k =>
    match utf8Decode ((s.input.drop s.offset).take k) with
    | some cps => ({ s with offset := s.offset + k + 1 }, .ok cps)
    | none => (s, .error (.pduParserError ("Could not read string at position " ++
        toString s.offset) s.offset))
  | none => (s, .error (.pduParserError ("Could not read string at position " ++
      toString s.offset) s.offset))

/-- Options of PduParser.string; lengthBits? = none models an absent
lengthBits argument, whose default depends on nullTerminate. -/
structure PStringOpts where
  lengthBits? : Option LengthBits := none
  nullTerminate : Bool := false

/-- PduParser.string: with a length word, read the length then dispatch on
it through readString(strlen), whose `if (strlen)` sends a zero length down
the null-terminated branch; without a length word, null-terminated mode
scans for the terminator, and having neither mode is a configuration
failure. -/
def PduParser.stringRead (reader : Reader (List Nat)) (o : PStringOpts) (s : PState) :
    PState × Except PErr Unit :=
  let lengthBits := o.lengthBits?.getD (if o.nullTerminate then none else some .b8)
  match lengthBits with
  | some bits =>
    match PduParser.readNumber bits s with
    | (t, .error e) => (t, .error e)
    | (t, .ok strlen) =>
      match (if strlen ≠ 0 then PduParser.readUTF8 strlen t else PduParser.readCStr t) with
      | (t2, .error e) => (t2, .error e)
      | (t2, .ok cps) => PduParser.parsePrim reader cps t2
  | none =>
    if o.nullTerminate then
      match PduParser.readCStr s with
      | (t, .error e) => (t, .error e)
      | (t, .ok cps) => PduParser.parsePrim reader cps t
    else
      (s, .error (.pduParserError ("Cannot parse string without length or null terminator")
        s.offset))

/-- Options of PduParser.hex; lengthBits? = none models an absent lengthBits
argument, whose default depends on whether a fixed length was given. -/
structure PHexOpts where
  lengthBits? : Option LengthBits := none
  length? : Option Nat := none

/-- readBytes(len).toString(hex): take len bytes as a lower-case hex string;
reading past the limit throws a bytebuffer RangeError (not a
PduParserError). -/
def PduParser.readBytesHex (len : Nat) (s : PState) : PState × Except PErr String :=
  if s.offset + len ≤ s.input.length then
    ({ s with offset := s.offset + len }, .ok (bytesToHex ((s.input.drop s.offset).take len)))
  else
    (s, .error (.externalError ("Illegal range")))

/-- PduParser.hex: determine the byte count from the length word or the
explicit length option (its absence is a configuration failure), read that
many bytes as a hex string — a zero count reads nothing and produces the
empty string — and hand the value to the reader. -/
def PduParser.hexRead (reader : Reader String) (o : PHexOpts) (s : PState) :
    PState × Except PErr Unit :=
  let lengthBits := o.lengthBits?.getD (if o.length?.isSome then none else some .b8)
  match lengthBits with
  | some bits =>
    match PduParser.readNumber bits s with
    | (t, .error e) => (t, .error e)
    | (t, .ok len) =>
      if len > 0 then
        match PduParser.readBytesHex len t with
        | (t2, .error e) => (t2, .error e)
        | (t2, .ok h) => PduParser.parsePrim reader h t2
      else PduParser.parsePrim reader ("") t
  | none =>
    match o.length? with
    | none => (s, .error (.pduParserError ("Must provide length or length bits") s.offset))
    | some len =>
      if len > 0 then
        match PduParser.readBytesHex len s with
        | (t, .error e) => (t, .error e)
        | (t, .ok h) => PduParser.parsePrim reader h t
      else PduParser.parsePrim reader ("") s

/-! ### The repeat engine -/

/-- Outcome of one invocation of a repeat sequence: the sequence returned
the parser (continue), returned null (stop), or a read inside it threw. -/
inductive SeqRes
  | cont
  | stop
  | err (e : PErr)

/-- A repeat sequence: mutates the state and reports its outcome. -/
def RSeq : Type :=
  PState → PState × SeqRes

/-- The conditions accepted by PduParser.repeat. -/
structure RepeatConds where
  times : Option Nat := none
  minTimes : Option Nat := none
  maxTimes : Option Nat := none

/-- The body of PduParser.repeat: break when the iteration counter reaches
times or maxTimes; otherwise run the sequence, continuing, stopping on null,
and on an exception raising a repeat-condition failure when an exact count
is required and unmet, or a minimum count is required and unmet, else
absorbing the failure.  The fuel argument bounds the number of loop
iterations of the source's while (true). -/
def PduParser.repeatAux (conds : RepeatConds) (seq : RSeq) :
    Nat → Nat → PState → PState × Except PErr Unit
  | 0, _, s => (s, .error (.externalError ("out of fuel")))
  | fuel + 1, i, s =>
    if conds.times = some i ∨ conds.maxTimes = some i then (s, .ok ())
    else
      match seq s with
      | (t, .cont) => PduParser.repeatAux conds seq fuel (i + 1) t
      | (t, .stop) => (t, .ok ())
      | (t, .err _) =>
        match conds.times with
        | some n =>
          if i ≠ n then
            (t, .error (.pduParserError ("Repeat sequence failed after " ++ toString i ++
              " iterations with condition times=" ++ toString n) t.offset))
          else
            match conds.minTimes with
            | some m =>
              if i < m then
                (t, .error (.pduParserError ("Repeat sequence failed after " ++ toString i ++
                  " iterations with condition minTimes=" ++ toString m) t.offset))
              else (t, .ok ())
            | none => (t, .ok ())
        | none =>
          match conds.minTimes with
          | some m =>
            if i < m then
              (t, .error (.pduParserError ("Repeat sequence failed after " ++ toString i ++
                " iterations with condition minTimes=" ++ toString m) t.offset))
            else (t, .ok ())
          | none => (t, .ok ())

/-- PduParser.repeat, starting the iteration counter at zero. -/
def PduParser.repeatRead (conds : RepeatConds) (seq : RSeq) (fuel : Nat) (s : PState) :
    PState × Except PErr Unit :=
  PduParser.repeatAux conds seq fuel 0 s

/-- Run i iterations of a sequence that all continue, returning the state
they reach; none if some iteration among them stopped or threw. -/
def seqIter (seq : RSeq) : Nat → PState → Option PState
  | 0, s => some s
  | n + 1, s =>
    match seq s with
    | (t, .cont) => seqIter seq n t
    | _ => none

/-! ## Lemmas about hex rendering and parsing -/

theorem hexDigitVal_toHexDigit (n : Nat) (h : n < 16) : hexDigitVal (toHexDigit n) = some n := by
  interval_cases n <;> decide

theorem byteToHex_isHex (b : Nat) : ∀ c ∈ byteToHex b, (hexDigitVal c).isNone = false := by
  intro c hc
  have h1 : hexDigitVal (toHexDigit (b / 16 % 16)) = some (b / 16 % 16) :=
    hexDigitVal_toHexDigit _ (Nat.mod_lt _ (by omega))
  have h2 : hexDigitVal (toHexDigit (b % 16)) = some (b % 16) :=
    hexDigitVal_toHexDigit _ (Nat.mod_lt _ (by omega))
  simp only [byteToHex, List.mem_cons, List.mem_singleton] at hc
  rcases hc with rfl | rfl | h
  · simp [h1]
  · simp [h2]
  · cases h

theorem bytesToHex_flatten_length (bs : List Nat) :
    ((bs.map byteToHex).flatten).length = 2 * bs.length := by
  induction bs with
  | nil => rfl
  | cons b bs ih =>
    simp only [List.map_cons, List.flatten_cons, List.length_append, ih, byteToHex,
      List.length_cons, List.length_nil]
    omega

theorem hexPairs_byteToHex (b : Nat) (hb : b < 256) (r : List Char) :
    hexPairs (byteToHex b ++ r) = b :: hexPairs r := by
  have h1 : hexDigitVal (toHexDigit (b / 16 % 16)) = some (b / 16 % 16) :=
    hexDigitVal_toHexDigit _ (Nat.mod_lt _ (by omega))
  have h2 : hexDigitVal (toHexDigit (b % 16)) = some (b % 16) :=
    hexDigitVal_toHexDigit _ (Nat.mod_lt _ (by omega))
  simp only [byteToHex, List.cons_append, List.nil_append, hexPairs, h1, h2, Option.getD_some]
  congr 1
  omega

theorem hexPairs_flatten (bs : List Nat) (h : ∀ b ∈ bs, b < 256) :
    hexPairs ((bs.map byteToHex).flatten) = bs := by
  induction bs with
  | nil => rfl
  | cons b bs ih =>
    simp only [List.map_cons, List.flatten_cons]
    rw [hexPairs_byteToHex b (h b (List.mem_cons_self b bs)) ((bs.map byteToHex).flatten)]
    rw [ih (fun x hx => h x (List.mem_cons_of_mem b hx))]

theorem parseHex_bytesToHex (bs : List Nat) (h : ∀ b ∈ bs, b < 256) :
    parseHex (bytesToHex bs) = .ok bs := by
  have hdata : (bytesToHex bs).data = (bs.map byteToHex).flatten := rfl
  have hfind : ((bs.map byteToHex).flatten).findIdx? (fun c => (hexDigitVal c).isNone) = none := by
    rw [List.findIdx?_eq_none_iff]
    intro c hc
    rw [List.mem_flatten] at hc
    obtain ⟨l, hl, hcl⟩ := hc
    rw [List.mem_map] at hl
    obtain ⟨b, _, rfl⟩ := hl
    exact byteToHex_isHex b c hcl
  unfold parseHex
  rw [hdata, hfind, bytesToHex_flatten_length]
  rw [if_neg (by omega)]
  rw [hexPairs_flatten bs h]

/-! ## Lemmas about the UTF-8 codec -/

theorem utf8EncodeChar_ne_nil (c : Nat) : utf8EncodeChar c ≠ [] := by
  unfold utf8EncodeChar
  split_ifs <;> simp

theorem utf8EncodeChar_lt256 (c : Nat) (hc : c < 1114112) :
    ∀ b ∈ utf8EncodeChar c, b < 256 := by
  intro b hb
  unfold utf8EncodeChar at hb
  split_ifs at hb with h1 h2 h3
  · simp only [List.mem_singleton] at hb
    omega
  · simp only [List.mem_cons, List.not_mem_nil, or_false] at hb
    rcases hb with rfl | rfl <;> omega
  · simp only [List.mem_cons, List.not_mem_nil, or_false] at hb
    rcases hb with rfl | rfl | rfl <;> omega
  · simp only [List.mem_cons, List.not_mem_nil, or_false] at hb
    rcases hb with rfl | rfl | rfl | rfl <;> omega

theorem zero_not_mem_utf8EncodeChar (c : Nat) (hc : c ≠ 0) : (0 : Nat) ∉ utf8EncodeChar c := by
  intro hmem
  unfold utf8EncodeChar at hmem
  split_ifs at hmem with h1 h2 h3 <;>
    simp only [List.mem_cons, List.mem_singleton, List.not_mem_nil, or_false] at hmem <;>
    omega

theorem utf8DecodeChar_encodeChar (c : Nat) (hc : c < 1114112) (rest : List Nat) :
    utf8DecodeChar (utf8EncodeChar c ++ rest) = some (c, rest) := by
  unfold utf8EncodeChar
  by_cases h1 : c < 128
  · rw [if_pos h1]
    simp only [List.cons_append, List.nil_append, utf8DecodeChar, if_pos h1]
  · rw [if_neg h1]
    by_cases h2 : c < 2048
    · rw [if_pos h2]
      have d1 : c / 64 < 32 := by omega
      have d2 : c % 64 < 64 := Nat.mod_lt _ (by omega)
      simp only [List.cons_append, List.nil_append, utf8DecodeChar]
      rw [if_neg (by omega), if_neg (by omega), if_pos (by omega), if_pos (by constructor <;> omega)]
      have : (192 + c / 64 - 192) * 64 + (128 + c % 64 - 128) = c := by omega
      rw [this]
    · rw [if_neg h2]
      by_cases h3 : c < 65536
      · rw [if_pos h3]
        have d1 : c / 4096 < 16 := by omega
        have d2 : c / 64 % 64 < 64 := Nat.mod_lt _ (by omega)
        have d3 : c % 64 < 64 := Nat.mod_lt _ (by omega)
        simp only [List.cons_append, List.nil_append, utf8DecodeChar]
        rw [if_neg (by omega), if_neg (by omega), if_neg (by omega), if_pos (by omega),
          if_pos (by constructor <;> constructor <;> omega)]
        have : (224 + c / 4096 - 224) * 4096 + (128 + c / 64 % 64 - 128) * 64 +
            (128 + c % 64 - 128) = c := by omega
        rw [this]
      · rw [if_neg h3]
        have d1 : c / 262144 < 5 := by omega
        have d2 : c / 4096 % 64 < 64 := Nat.mod_lt _ (by omega)
        have d3 : c / 64 % 64 < 64 := Nat.mod_lt _ (by omega)
        have d4 : c % 64 < 64 := Nat.mod_lt _ (by omega)
        simp only [List.cons_append, List.nil_append, utf8DecodeChar]
        rw [if_neg (by omega), if_neg (by omega), if_neg (by omega), if_neg (by omega),
          if_pos (by omega),
          if_pos (by refine ⟨⟨by omega, by omega⟩, ⟨by omega, by omega⟩, by omega, by omega⟩)]
        have : (240 + c / 262144 - 240) * 262144 + (128 + c / 4096 % 64 - 128) * 4096 +
            (128 + c / 64 % 64 - 128) * 64 + (128 + c % 64 - 128) = c := by omega
        rw [this]

theorem length_le_utf8Encode_length (cps : List Nat) :
    cps.length ≤ (utf8Encode cps).length := by
  induction cps with
  | nil => simp [utf8Encode]
  | cons d ds ihd =>
    have h1 : 1 ≤ (utf8EncodeChar d).length :=
      List.length_pos.mpr (utf8EncodeChar_ne_nil d)
    simp only [utf8Encode, List.map_cons, List.flatten_cons, List.length_append,
      List.length_cons] at ihd ⊢
    omega

theorem utf8DecodeAux_encode (cps : List Nat) (hv : ∀ c ∈ cps, c < 1114112) :
    ∀ fuel, cps.length ≤ fuel → utf8DecodeAux fuel (utf8Encode cps) = some cps := by
  induction cps with
  | nil => intro fuel _; cases fuel <;> rfl
  | cons c cps ih =>
    intro fuel hfuel
    have hc : c < 1114112 := hv c (List.mem_cons_self c cps)
    have henc : utf8Encode (c :: cps) = utf8EncodeChar c ++ utf8Encode cps := by
      simp [utf8Encode]
    obtain ⟨b, bs, hcons⟩ : ∃ b bs, utf8EncodeChar c ++ utf8Encode cps = b :: bs := by
      cases hchar : utf8EncodeChar c with
      | nil => exact absurd hchar (utf8EncodeChar_ne_nil c)
      | cons b bs => exact ⟨b, bs ++ utf8Encode cps, by simp⟩
    cases fuel with
    | zero =>
      exfalso
      simp only [List.length_cons] at hfuel
      omega
    | succ fuel =>
      rw [henc, hcons]
      show utf8DecodeAux (fuel + 1) (b :: bs) = some (c :: cps)
      unfold utf8DecodeAux
      rw [← hcons, utf8DecodeChar_encodeChar c hc]
      have hrec : utf8DecodeAux fuel (utf8Encode cps) = some cps := by
        apply ih (fun x hx => hv x (List.mem_cons_of_mem c hx))
        simp only [List.length_cons] at hfuel
        omega
      show Option.map (fun x => c :: x) (utf8DecodeAux fuel (utf8Encode cps)) = some (c :: cps)
      rw [hrec]
      rfl

theorem utf8Decode_encode (cps : List Nat) (hv : ∀ c ∈ cps, c < 1114112) :
    utf8Decode (utf8Encode cps) = some cps :=
  utf8DecodeAux_encode cps hv _ (length_le_utf8Encode_length cps)

theorem zero_not_mem_utf8Encode (cps : List Nat) (h : (0 : Nat) ∉ cps) :
    (0 : Nat) ∉ utf8Encode cps := by
  intro hmem
  rw [utf8Encode, List.mem_flatten] at hmem
  obtain ⟨l, hl, h0⟩ := hmem
  rw [List.mem_map] at hl
  obtain ⟨c, hcmem, rfl⟩ := hl
  exact zero_not_mem_utf8EncodeChar c (fun hc => h (hc ▸ hcmem)) h0

theorem findZero_append_of_not_mem (l : List Nat) (hl : (0 : Nat) ∉ l) (r : List Nat) :
    findZero (l ++ 0 :: r) = some l.length := by
  induction l with
  | nil => rfl
  | cons b bs ih =>
    have hb : b ≠ 0 := fun h => hl (h ▸ List.mem_cons_self b bs)
    simp only [List.cons_append, findZero, if_neg hb, List.append_eq]
    rw [ih (fun h => hl (List.mem_cons_of_mem b h))]
    rfl

/-! ## Lemmas about the builder state -/

theorem writeByte_offset (b : BState) (v : Nat) : (b.writeByte v).offset = b.offset + 1 := rfl

theorem writeBytes_offset (b : BState) (vs : List Nat) :
    (b.writeBytes vs).offset = b.offset + vs.length := by
  induction vs generalizing b with
  | nil => rfl
  | cons v vs ih =>
    show ((b.writeByte v).writeBytes vs).offset = b.offset + (v :: vs).length
    rw [ih (b.writeByte v), writeByte_offset]
    simp only [List.length_cons]
    omega

theorem writeByte_hwm (b : BState) (v : Nat) : (b.writeByte v).hwm = b.hwm := rfl

theorem writeBytes_hwm (b : BState) (vs : List Nat) : (b.writeBytes vs).hwm = b.hwm := by
  induction vs generalizing b with
  | nil => rfl
  | cons v vs ih =>
    show ((b.writeByte v).writeBytes vs).hwm = b.hwm
    rw [ih (b.writeByte v), writeByte_hwm]

theorem writeByte_endian (b : BState) (v : Nat) : (b.writeByte v).endian = b.endian := rfl

theorem writeBytes_endian (b : BState) (vs : List Nat) : (b.writeBytes vs).endian = b.endian := by
  induction vs generalizing b with
  | nil => rfl
  | cons v vs ih =>
    show ((b.writeByte v).writeBytes vs).endian = b.endian
    rw [ih (b.writeByte v), writeByte_endian]

theorem writeByte_marks (b : BState) (v : Nat) : (b.writeByte v).marks = b.marks := rfl

theorem writeByte_tail (b : BState) (v : Nat) (h : b.offset = b.data.length) :
    (b.writeByte v).data = b.data ++ [v % 256] := by
  unfold BState.writeByte
  have hd : List.drop (b.data.length + 1) b.data = [] :=
    List.drop_eq_nil_of_le (by omega)
  simp only [h, List.take_length, hd, List.append_nil]

theorem writeBytes_tail (b : BState) (vs : List Nat) (h : b.offset = b.data.length)
    (hlt : ∀ v ∈ vs, v < 256) : (b.writeBytes vs).data = b.data ++ vs := by
  induction vs generalizing b with
  | nil => simp [BState.writeBytes]
  | cons v vs ih =>
    show ((b.writeByte v).writeBytes vs).data = b.data ++ v :: vs
    have hv : v % 256 = v := Nat.mod_eq_of_lt (hlt v (List.mem_cons_self v vs))
    have h1 : (b.writeByte v).offset = (b.writeByte v).data.length := by
      rw [writeByte_offset, writeByte_tail b v h, List.length_append, h]
      rfl
    rw [ih (b.writeByte v) h1 (fun x hx => hlt x (List.mem_cons_of_mem v hx))]
    rw [writeByte_tail b v h, hv]
    simp

theorem numBytes_length (bits : BitLength) (e : Endian) (v : Nat) :
    (numBytes bits e v).length = bits.bytes := by
  cases bits <;> cases e <;> rfl

theorem numBytes_lt256 (bits : BitLength) (e : Endian) (v : Nat) :
    ∀ b ∈ numBytes bits e v, b < 256 := by
  intro b hb
  cases bits <;> cases e <;>
    simp only [numBytes, List.reverse_cons, List.reverse_nil, List.nil_append,
      List.cons_append, List.mem_cons, List.not_mem_nil, or_false] at hb <;>
    rcases hb with rfl | hb <;>
    first
      | exact Nat.mod_lt _ (by omega)
      | (rcases hb with rfl | hb <;>
          first
            | exact Nat.mod_lt _ (by omega)
            | (rcases hb with rfl | hb <;>
                first
                  | exact Nat.mod_lt _ (by omega)
                  | (rcases hb with rfl | hb <;>
                      first
                        | exact Nat.mod_lt _ (by omega)
                        | cases hb)))

theorem decodeNum_numBytes (bits : BitLength) (e : Endian) (v : Nat)
    (h : v ≤ getMaxValue (some bits)) : decodeNum bits e (numBytes bits e v) = v := by
  cases bits <;> cases e <;>
    simp only [getMaxValue, BitLength.bits] at h <;>
    simp only [decodeNum, numBytes, List.reverse_cons, List.reverse_nil, List.nil_append,
      List.cons_append, List.append_nil, bytesToNum, List.foldl_cons, List.foldl_nil] <;>
    omega

theorem length_writeByte_le (b : BState) (v : Nat) : b.length ≤ (b.writeByte v).length := by
  unfold BState.length BState.writeByte
  simp only
  omega

theorem length_writeBytes_le (b : BState) (vs : List Nat) :
    b.length ≤ (b.writeBytes vs).length := by
  induction vs generalizing b with
  | nil => exact le_refl _
  | cons v vs ih =>
    exact le_trans (length_writeByte_le b v) (ih (b.writeByte v))

theorem setOffset_ok_length (b : BState) (pos : Nat) (b' : BState)
    (h : b.setOffset pos = .ok b') : b'.length = b.length := by
  unfold BState.setOffset at h
  split at h
  · cases h
  · cases h
    rename_i hle
    unfold BState.length at hle ⊢
    simp only
    omega

theorem setOffset_fail (b : BState) (pos : Nat) (h : pos > b.length) :
    b.setOffset pos = .error ("Cannot set position beyond current length") := by
  unfold BState.setOffset
  rw [if_pos h]

theorem setOffset_ok_offset (b : BState) (pos : Nat) (b' : BState)
    (h : b.setOffset pos = .ok b') : b'.offset = pos ∧ b'.offset ≤ b'.length := by
  unfold BState.setOffset at h
  split at h
  · cases h
  · cases h
    rename_i hle
    refine ⟨rfl, ?_⟩
    unfold BState.length at hle ⊢
    simp only
    omega

theorem length_writeNumber_le (b : BState) (v : Int) (bits : BitLength) (b' : BState)
    (h : PduBuilder.writeNumber b v bits = .ok b') : b.length ≤ b'.length := by
  unfold PduBuilder.writeNumber at h
  split at h
  · cases h
  · cases h
    exact length_writeBytes_le b _

theorem length_number_le (b : BState) (bits : BitLength) (vs : List Int) (b' : BState)
    (h : PduBuilder.number b bits vs = .ok b') : b.length ≤ b'.length := by
  induction vs generalizing b with
  | nil =>
    cases h
    exact le_refl _
  | cons v vs ih =>
    unfold PduBuilder.number at h
    cases h1 : PduBuilder.writeNumber b v bits with
    | error e => rw [h1] at h; cases h
    | ok b1 =>
      rw [h1] at h
      exact le_trans (length_writeNumber_le b v bits b1 h1) (ih b1 h)

theorem length_string_le (b : BState) (cps : List Nat) (o : BStringOpts) (b' : BState)
    (h : PduBuilder.string b cps o = .ok b') : b.length ≤ b'.length := by
  unfold PduBuilder.string at h
  split at h
  · cases h
  · split at h
    · cases h
    · split at h
      · cases h
      · cases hlb : o.lengthBits with
        | none =>
          rw [hlb] at h
          dsimp only at h
          cases h
          exact length_writeBytes_le b _
        | some bits =>
          rw [hlb] at h
          dsimp only at h
          cases hwn : PduBuilder.writeNumber b ((stringBytes cps o.nullTerminate).length : Int) bits with
          | error e => rw [hwn] at h; cases h
          | ok b1 =>
            rw [hwn] at h
            cases h
            exact le_trans (length_writeNumber_le b _ bits b1 hwn) (length_writeBytes_le b1 _)

theorem length_hexBytes_le (b : BState) (bs : List Nat) (o : BHexOpts) (b' : BState)
    (h : PduBuilder.hexBytes b bs o = .ok b') : b.length ≤ b'.length := by
  unfold PduBuilder.hexBytes at h
  split at h
  · cases h
  · cases hlb : o.lengthBits with
    | none =>
      rw [hlb] at h
      dsimp only at h
      cases h
      split
      · exact length_writeBytes_le b _
      · exact le_refl _
    | some bits =>
      rw [hlb] at h
      dsimp only at h
      cases hwn : PduBuilder.writeNumber b (bs.length : Int) bits with
      | error e => rw [hwn] at h; cases h
      | ok b1 =>
        rw [hwn] at h
        cases h
        split
        · exact le_trans (length_writeNumber_le b _ bits b1 hwn) (length_writeBytes_le b1 _)
        · exact length_writeNumber_le b _ bits b1 hwn

theorem length_loadMark_le (b : BState) (id : String) (b' : BState)
    (h : PduBuilder.loadMark b id = .ok b') : b.length ≤ b'.length := by
  unfold PduBuilder.loadMark at h
  split at h
  · cases h
  · exact le_of_eq (setOffset_ok_length b _ b' h).symm

theorem length_endOfBuf_le (b : BState) (b' : BState)
    (h : PduBuilder.endOfBuf b = .ok b') : b.length ≤ b'.length :=
  le_of_eq (setOffset_ok_length b _ b' h).symm

theorem length_saveMark (b : BState) (id : String) :
    (PduBuilder.saveMark b id).length = b.length := rfl

/-- The builder operations a caller can chain (build and remaining do not
mutate the state). -/
inductive BOp
  | number (bits : BitLength) (values : List Int)
  | strOp (cps : List Nat) (o : BStringOpts)
  | hexOp (bs : List Nat) (o : BHexOpts)
  | saveMark (id : String)
  | loadMark (id : String)
  | endOp
  | setOffset (pos : Nat)

/-- Apply one builder operation to a builder state. -/
def applyOp : BOp → BState → Except String BState
  | .number bits vs, b => PduBuilder.number b bits vs
  | .strOp cps o, b => PduBuilder.string b cps o
  | .hexOp bs o, b => PduBuilder.hexBytes b bs o
  | .saveMark id, b => .ok (PduBuilder.saveMark b id)
  | .loadMark id, b => PduBuilder.loadMark b id
  | .endOp, b => PduBuilder.endOfBuf b
  | .setOffset pos, b => b.setOffset pos

theorem length_applyOp_le (op : BOp) (b b' : BState) (h : applyOp op b = .ok b') :
    b.length ≤ b'.length := by
  cases op with
  | number bits vs => exact length_number_le b bits vs b' h
  | strOp cps o => exact length_string_le b cps o b' h
  | hexOp bs o => exact length_hexBytes_le b bs o b' h
  | saveMark id =>
    cases h
    exact le_of_eq (length_saveMark b id).symm
  | loadMark id => exact length_loadMark_le b id b' h
  | endOp => exact length_endOfBuf_le b b' h
  | setOffset pos =>
    exact le_of_eq (setOffset_ok_length b pos b' h).symm

/-! ## Lemmas about the field-value record -/

theorem lookupR_setK_same (r : Record) (k : String) (v : Value) :
    lookupR (setK r k v) k = some v := by
  unfold setK
  split
  · rename_i hany
    unfold lookupR
    induction r with
    | nil => cases hany
    | cons p r ih =>
      simp only [List.any_cons, Bool.or_eq_true, decide_eq_true_eq] at hany
      simp only [List.map_cons]
      by_cases hp : p.1 = k
      · rw [if_pos hp]
        rw [List.find?_cons_of_pos _ (by simp)]
        rfl
      · rw [if_neg hp]
        rw [List.find?_cons_of_neg _ (by simp [hp])]
        apply ih
        simp only [List.any_eq_true, decide_eq_true_eq]
        rcases hany with h1 | h2
        · exact absurd h1 hp
        · simpa only [List.any_eq_true, decide_eq_true_eq] using h2
  · rename_i hany
    have hall : ∀ x ∈ r, ¬(x.1 = k) := by
      intro x hx hxk
      exact hany (by simp only [List.any_eq_true, decide_eq_true_eq]; exact ⟨x, hx, hxk⟩)
    clear hany
    unfold lookupR
    induction r with
    | nil =>
      rw [List.nil_append]
      rw [List.find?_cons_of_pos _ (by simp)]
      rfl
    | cons p r ih =>
      simp only [List.cons_append]
      rw [List.find?_cons_of_neg _ (by simp [hall p (List.mem_cons_self p r)])]
      exact ih (fun x hx => hall x (List.mem_cons_of_mem p hx))

theorem lookupR_setK_other (r : Record) (k k' : String) (v : Value) (hne : k' ≠ k) :
    lookupR (setK r k v) k' = lookupR r k' := by
  have hkk : k ≠ k' := Ne.symm hne
  unfold setK
  split
  · rename_i hany
    clear hany
    unfold lookupR
    induction r with
    | nil => rfl
    | cons p r ih =>
      simp only [List.map_cons]
      by_cases hp : p.1 = k
      · rw [if_pos hp]
        rw [List.find?_cons_of_neg _ (by simp [hkk])]
        rw [List.find?_cons_of_neg _ (by simp [hp, hkk])]
        exact ih
      · rw [if_neg hp]
        by_cases hq : p.1 = k'
        · rw [List.find?_cons_of_pos _ (by simp [hq]), List.find?_cons_of_pos _ (by simp [hq])]
        · rw [List.find?_cons_of_neg _ (by simp [hq]), List.find?_cons_of_neg _ (by simp [hq])]
          exact ih
  · rename_i hany
    clear hany
    unfold lookupR
    induction r with
    | nil =>
      rw [List.nil_append]
      rw [List.find?_cons_of_neg _ (by simp [hkk])]
    | cons p r ih =>
      simp only [List.cons_append]
      by_cases hq : p.1 = k'
      · rw [List.find?_cons_of_pos _ (by simp [hq]), List.find?_cons_of_pos _ (by simp [hq])]
      · rw [List.find?_cons_of_neg _ (by simp [hq]), List.find?_cons_of_neg _ (by simp [hq])]
        exact ih

theorem lookupR_head (k : String) (v : Value) (u : Record) :
    lookupR ((k, v) :: u) k = some v := by
  unfold lookupR
  rw [List.find?_cons_of_pos _ (by simp)]
  rfl

theorem lookupR_tail (k k0 : String) (v0 : Value) (u : Record) (hne : k ≠ k0) :
    lookupR ((k0, v0) :: u) k = lookupR u k := by
  unfold lookupR
  rw [List.find?_cons_of_neg _ (by simp [Ne.symm hne])]

theorem lookupR_assignRec (u : Record) (hnd : (u.map Prod.fst).Nodup) :
    ∀ (r : Record) (k : String),
      lookupR (assignRec r u) k =
        if k ∈ u.map Prod.fst then lookupR u k else lookupR r k := by
  induction u with
  | nil =>
    intro r k
    simp only [List.map_nil, List.not_mem_nil, if_false]
    rfl
  | cons p u ih =>
    intro r k
    obtain ⟨k0, v0⟩ := p
    simp only [List.map_cons, List.nodup_cons] at hnd
    have hstep : assignRec r ((k0, v0) :: u) = assignRec (setK r k0 v0) u := rfl
    rw [hstep, ih hnd.2]
    by_cases hk : k = k0
    · subst hk
      rw [if_neg (by simpa using hnd.1)]
      rw [if_pos (by simp)]
      rw [lookupR_setK_same, lookupR_head]
    · rw [lookupR_setK_other r k0 k v0 hk, lookupR_tail k k0 v0 u hk]
      by_cases hmem : k ∈ u.map Prod.fst
      · rw [if_pos hmem, if_pos (by simp [hmem])]
      · rw [if_neg hmem, if_neg (by simp [hmem, hk])]

/-! ## Lemmas about the repeat engine -/

theorem repeatAux_times_fail (seq : RSeq) (c : RepeatConds) (n : Nat)
    (hct : c.times = some n) (hcx : c.maxTimes = none) :
    ∀ (i j : Nat) (s s' sF : PState) (e : PErr) (fuel : Nat),
      seqIter seq i s = some s' → seq s' = (sF, .err e) → j + i < n → i < fuel →
      PduParser.repeatAux c seq fuel j s =
        (sF, .error (.pduParserError ("Repeat sequence failed after " ++ toString (j + i) ++
          " iterations with condition times=" ++ toString n) sF.offset)) := by
  intro i
  induction i with
  | zero =>
    intro j s s' sF e fuel hiter hfail hlt hfuel
    cases fuel with
    | zero => omega
    | succ fuel =>
      simp only [seqIter] at hiter
      have hs : s' = s := (Option.some.inj hiter).symm
      subst hs
      unfold PduParser.repeatAux
      rw [hct, hcx]
      rw [if_neg (by
        intro hor
        rcases hor with h | h
        exacts [absurd (Option.some.inj h) (by omega), Option.noConfusion h])]
      rw [hfail]
      dsimp only
      rw [if_pos (by omega : j ≠ n)]
      simp only [Nat.add_zero]
  | succ i ih =>
    intro j s s' sF e fuel hiter hfail hlt hfuel
    cases fuel with
    | zero => omega
    | succ fuel =>
      unfold seqIter at hiter
      cases hseq : seq s with
      | mk t res =>
        rw [hseq] at hiter
        cases res with
        | cont =>
          unfold PduParser.repeatAux
          rw [hct, hcx]
          rw [if_neg (by
            intro hor
            rcases hor with h | h
            exacts [absurd (Option.some.inj h) (by omega), Option.noConfusion h])]
          rw [hseq]
          dsimp only
          have harith : j + 1 + i = j + (i + 1) := by omega
          have hres := ih (j + 1) t s' sF e fuel hiter hfail (by omega) (by omega)
          rw [harith] at hres
          exact hres
        | stop => cases hiter
        | err e2 => cases hiter

theorem repeatAux_minTimes (seq : RSeq) (c : RepeatConds) (m : Nat)
    (hct : c.times = none) (hcm : c.minTimes = some m) (hcx : c.maxTimes = none) :
    ∀ (i j : Nat) (s s' sF : PState) (e : PErr) (fuel : Nat),
      seqIter seq i s = some s' → seq s' = (sF, .err e) → i < fuel →
      PduParser.repeatAux c seq fuel j s =
        (if j + i < m then
          (sF, .error (.pduParserError ("Repeat sequence failed after " ++ toString (j + i) ++
            " iterations with condition minTimes=" ++ toString m) sF.offset))
        else (sF, .ok ())) := by
  intro i
  induction i with
  | zero =>
    intro j s s' sF e fuel hiter hfail hfuel
    cases fuel with
    | zero => omega
    | succ fuel =>
      simp only [seqIter] at hiter
      have hs : s' = s := (Option.some.inj hiter).symm
      subst hs
      unfold PduParser.repeatAux
      rw [hct, hcm, hcx]
      rw [if_neg (by
        intro hor
        rcases hor with h | h <;> exact Option.noConfusion h)]
      rw [hfail]
      dsimp only
      simp only [Nat.add_zero]
  | succ i ih =>
    intro j s s' sF e fuel hiter hfail hfuel
    cases fuel with
    | zero => omega
    | succ fuel =>
      unfold seqIter at hiter
      cases hseq : seq s with
      | mk t res =>
        rw [hseq] at hiter
        cases res with
        | cont =>
          unfold PduParser.repeatAux
          rw [hct, hcm, hcx]
          rw [if_neg (by
            intro hor
            rcases hor with h | h <;> exact Option.noConfusion h)]
          rw [hseq]
          dsimp only
          have harith : j + 1 + i = j + (i + 1) := by omega
          have hres := ih (j + 1) t s' sF e fuel hiter hfail (by omega)
          rw [harith] at hres
          exact hres
        | stop => cases hiter
        | err e2 => cases hiter

/-! ## The discriminated sensor record of the test suite -/

/-- The branching reader of the repeat tests: dispatch on the type byte and
issue a nested read against the parser, returning the parser itself; an
unknown type byte throws. -/
def variantReader : Reader Nat := fun type _ s =>
  match type with
  | 1 =>
    match PduParser.numberRead .b16 (fun v _ t => (t, .merge [(("temperature"), .num (v / 10))])) s with
    | (t, .ok _) => (t, .self)
    | (t, .error e) => (t, .raise e)
  | 2 =>
    match PduParser.numberRead .b8 (simpleReaderN ("humidity")) s with
    | (t, .ok _) => (t, .self)
    | (t, .error e) => (t, .raise e)
  | 6 =>
    match PduParser.numberRead .b16 (fun v _ t => (t, .merge [(("co2"), .num v)])) s with
    | (t, .ok _) => (t, .self)
    | (t, .error e) => (t, .raise e)
  | 7 =>
    match PduParser.numberRead .b16 (fun v _ t => (t, .merge [(("internalVoltage"), .num v)])) s with
    | (t, .ok _) => (t, .self)
    | (t, .error e) => (t, .raise e)
  | _ => (s, .raise (.externalError ("Unexpected type byte")))

/-- The repeat sequence of the tests: one discriminated uint8 read; the
sequence always returns the parser (continue) and never the stop signal. -/
def variantSeq : RSeq := fun s =>
  match PduParser.numberRead .b8 variantReader s with
  | (t, .ok _) => (t, .cont)
  | (t, .error e) => (t, .err e)

/-- The test input 0100e6021b0602bf070e43, decoded. -/
def sensorBytes : List Nat := [1, 0, 230, 2, 27, 6, 2, 191, 7, 14, 67]

/-- Parser start state over the sensor input. -/
def sensorStart : PState := ⟨sensorBytes, 0, [], .big⟩

/-- The four decoded sensor fields, in decode order. -/
def sensorFields : Record :=
  [(("temperature"), .num 23), (("humidity"), .num 27),
   (("co2"), .num 703), (("internalVoltage"), .num 3651)]

/-! ## Round-trip pipelines (build, emit hex, parse back) -/

/-- Build one number from a fresh builder, emit the PDU, parse it back and
read the number into field x. -/
def roundNum (bits : BitLength) (e : Endian) (v : Int) :
    Except String (PState × Except PErr Unit) :=
  match PduBuilder.number (emptyBuilder e) bits [v] with
  | .error m => .error m
  | .ok b =>
    match PduParser.parseStart (PduBuilder.build b) e with
    | .error m => .error m
    | .ok s => .ok (PduParser.numberRead bits (simpleReaderN ("x")) s)

/-- Build one length-prefixed string, emit the PDU, parse it back with the
matching descriptor. -/
def roundString (cps : List Nat) (bits : BitLength) (e : Endian) :
    Except String (PState × Except PErr Unit) :=
  match PduBuilder.string (emptyBuilder e) cps {lengthBits := some bits} with
  | .error m => .error m
  | .ok b =>
    match PduParser.parseStart (PduBuilder.build b) e with
    | .error m => .error m
    | .ok s => .ok (PduParser.stringRead (simpleReaderS ("x")) {lengthBits? := some (some bits)} s)

/-- Build one null-terminated string, emit the PDU, parse it back with the
matching descriptor. -/
def roundStringNull (cps : List Nat) (e : Endian) :
    Except String (PState × Except PErr Unit) :=
  match PduBuilder.string (emptyBuilder e) cps {lengthBits := none, nullTerminate := true} with
  | .error m => .error m
  | .ok b =>
    match PduParser.parseStart (PduBuilder.build b) e with
    | .error m => .error m
    | .ok s =>
      .ok (PduParser.stringRead (simpleReaderS ("x"))
        {lengthBits? := some none, nullTerminate := true} s)

/-- Build one length-prefixed byte span, emit the PDU, parse it back with
the matching descriptor. -/
def roundHex (bs : List Nat) (bits : BitLength) (e : Endian) :
    Except String (PState × Except PErr Unit) :=
  match PduBuilder.hexBytes (emptyBuilder e) bs {lengthBits := some bits} with
  | .error m => .error m
  | .ok b =>
    match PduParser.parseStart (PduBuilder.build b) e with
    | .error m => .error m
    | .ok s => .ok (PduParser.hexRead (simpleReaderH ("x")) {lengthBits? := some (some bits)} s)

/-! ## The bookmark and linear build chains of the test suite -/

/-- The bookmark chain of the PduBuilder test: write, saveMark, write a
placeholder, write more, loadMark, overwrite, end, append. -/
def bookmarkBuild : Except String String :=
  match PduBuilder.number (emptyBuilder .big) .b8 [65, 66] with
  | .error m => .error m
  | .ok b =>
  match PduBuilder.string b (strCps ("hello, ")) {} with
  | .error m => .error m
  | .ok b =>
  let b := PduBuilder.saveMark b ("NAME")
  match PduBuilder.string b (strCps ("world")) {lengthBits := none, nullTerminate := true} with
  | .error m => .error m
  | .ok b =>
  match PduBuilder.number b .b16 [0xcafe] with
  | .error m => .error m
  | .ok b =>
  match PduBuilder.loadMark b ("NAME") with
  | .error m => .error m
  | .ok b =>
  match PduBuilder.string b (strCps ("abcde")) {lengthBits := none, nullTerminate := true} with
  | .error m => .error m
  | .ok b =>
  match PduBuilder.endOfBuf b with
  | .error m => .error m
  | .ok b =>
  match PduBuilder.hex b ("abcdef") {lengthBits := some .b32} with
  | .error m => .error m
  | .ok b => .ok (PduBuilder.build b)

/-- The fully linear chain writing the same final contents directly. -/
def linearBuild : Except String String :=
  match PduBuilder.number (emptyBuilder .big) .b8 [65, 66] with
  | .error m => .error m
  | .ok b =>
  match PduBuilder.string b (strCps ("hello, ")) {} with
  | .error m => .error m
  | .ok b =>
  match PduBuilder.string b (strCps ("abcde")) {lengthBits := none, nullTerminate := true} with
  | .error m => .error m
  | .ok b =>
  match PduBuilder.number b .b16 [0xcafe] with
  | .error m => .error m
  | .ok b =>
  match PduBuilder.hex b ("abcdef") {lengthBits := some .b32} with
  | .error m => .error m
  | .ok b => .ok (PduBuilder.build b)

/-- Build the empty string with the default 8-bit length prefix, then parse
it back with the matching default descriptor. -/
def emptyStringRound : Except String (PState × Except PErr Unit) :=
  match PduBuilder.string (emptyBuilder .big) [] {} with
  | .error m => .error m
  | .ok b =>
    match PduParser.parseStart (PduBuilder.build b) .big with
    | .error m => .error m
    | .ok s => .ok (PduParser.stringRead (simpleReaderS ("x")) {} s)

/-! ## Round-trip helper lemmas -/

theorem writeByte_tail_state (b : BState) (v : Nat) (h : b.offset = b.data.length) :
    b.writeByte v = { b with data := b.data ++ [v % 256], offset := b.offset + 1 } := by
  unfold BState.writeByte
  have hd : List.drop (b.data.length + 1) b.data = [] := List.drop_eq_nil_of_le (by omega)
  rw [h, List.take_length, hd, List.append_nil]

theorem writeBytes_tail_state (b : BState) (vs : List Nat) (h : b.offset = b.data.length)
    (hlt : ∀ v ∈ vs, v < 256) :
    b.writeBytes vs = { b with data := b.data ++ vs, offset := b.offset + vs.length } := by
  induction vs generalizing b with
  | nil => simp [BState.writeBytes]
  | cons v vs ih =>
    have hv : v % 256 = v := Nat.mod_eq_of_lt (hlt v (List.mem_cons_self v vs))
    show ((b.writeByte v).writeBytes vs) = _
    rw [writeByte_tail_state b v h, hv]
    rw [ih _ (by simp [h]) (fun x hx => hlt x (List.mem_cons_of_mem v hx))]
    simp only [List.append_assoc, List.singleton_append, List.length_cons]
    congr 1
    omega

theorem readNumber_at (bits : BitLength) (s : PState) (v : Nat) (rest : List Nat)
    (hv : v ≤ getMaxValue (some bits))
    (h : s.input.drop s.offset = numBytes bits s.endian v ++ rest) :
    PduParser.readNumber bits s = ({ s with offset := s.offset + bits.bytes }, .ok v) := by
  have hbytes : 0 < bits.bytes := by cases bits <;> simp [BitLength.bytes]
  have hlen : s.input.length - s.offset = bits.bytes + rest.length := by
    have hh := congrArg List.length h
    simpa [numBytes_length] using hh
  have hbound : s.offset + bits.bytes ≤ s.input.length := by
    rcases le_or_lt s.offset s.input.length with hle | hlt
    · omega
    · exfalso
      have hnil : s.input.drop s.offset = [] := List.drop_eq_nil_of_le (by omega)
      rw [hnil] at h
      have hh := congrArg List.length h
      simp only [List.length_nil, List.length_append, numBytes_length] at hh
      omega
  unfold PduParser.readNumber
  rw [if_pos hbound, h]
  rw [show (numBytes bits s.endian v ++ rest).take bits.bytes = numBytes bits s.endian v from by
    rw [← numBytes_length bits s.endian v]
    exact List.take_left _ _]
  rw [decodeNum_numBytes bits s.endian v hv]

theorem writeNumber_tail (b : BState) (v : Nat) (bits : BitLength)
    (hv : v ≤ getMaxValue (some bits)) (htail : b.offset = b.data.length) :
    PduBuilder.writeNumber b (v : Int) bits =
      .ok { b with data := b.data ++ numBytes bits b.endian v, offset := b.offset + bits.bytes } := by
  unfold PduBuilder.writeNumber
  rw [if_neg (by omega)]
  rw [show ((v : Int)).toNat = v from Int.toNat_natCast v]
  rw [writeBytes_tail_state b _ htail (numBytes_lt256 bits b.endian v)]
  rw [numBytes_length]

theorem number_single_empty (bits : BitLength) (e : Endian) (v : Nat)
    (hv : v ≤ getMaxValue (some bits)) :
    PduBuilder.number (emptyBuilder e) bits [(v : Int)] =
      .ok ⟨numBytes bits e v, bits.bytes, 0, [], e⟩ := by
  unfold PduBuilder.number
  rw [writeNumber_tail (emptyBuilder e) v bits hv rfl]
  dsimp only
  unfold PduBuilder.number
  congr 1
  simp [emptyBuilder]

theorem build_tail (data : List Nat) (off : Nat) (marks : List (String × Nat)) (e : Endian)
    (h : off = data.length) :
    PduBuilder.build ⟨data, off, 0, marks, e⟩ = bytesToHex data := by
  unfold PduBuilder.build BState.length
  simp only [h]
  rw [show max 0 data.length = data.length from by omega]
  rw [List.take_length]

theorem parseStart_bytesToHex (bs : List Nat) (e : Endian) (hlt : ∀ b ∈ bs, b < 256) :
    PduParser.parseStart (bytesToHex bs) e = .ok ⟨bs, 0, [], e⟩ := by
  unfold PduParser.parseStart
  rw [parseHex_bytesToHex bs hlt]
  rfl

theorem roundNum_ok (bits : BitLength) (e : Endian) (v : Nat) (hv : v ≤ getMaxValue (some bits)) :
    roundNum bits e (v : Int) =
      .ok (⟨numBytes bits e v, bits.bytes, [(("x"), .num v)], e⟩, .ok ()) := by
  unfold roundNum
  rw [number_single_empty bits e v hv]
  dsimp only
  rw [build_tail _ _ _ _ (numBytes_length bits e v).symm]
  rw [parseStart_bytesToHex _ _ (numBytes_lt256 bits e v)]
  dsimp only
  unfold PduParser.numberRead
  rw [readNumber_at bits ⟨numBytes bits e v, 0, [], e⟩ v []
    hv (by simp)]
  dsimp only
  unfold PduParser.parsePrim simpleReaderN
  dsimp only
  congr 2
  simp [assignRec, setK, Nat.zero_add]

theorem utf8Encode_lt256 (cps : List Nat) (hval : ∀ c ∈ cps, c < 1114112) :
    ∀ b ∈ utf8Encode cps, b < 256 := by
  intro b hb
  rw [utf8Encode, List.mem_flatten] at hb
  obtain ⟨l, hl, hbl⟩ := hb
  rw [List.mem_map] at hl
  obtain ⟨c, hcmem, rfl⟩ := hl
  exact utf8EncodeChar_lt256 c (hval c hcmem) b hbl

theorem string_lenPrefix_empty (bits : BitLength) (e : Endian) (cps : List Nat)
    (hval : ∀ c ∈ cps, c < 1114112)
    (hlen : (utf8Encode cps).length ≤ getMaxValue (some bits)) :
    PduBuilder.string (emptyBuilder e) cps {lengthBits := some bits} =
      .ok ⟨numBytes bits e (utf8Encode cps).length ++ utf8Encode cps,
        bits.bytes + (utf8Encode cps).length, 0, [], e⟩ := by
  unfold PduBuilder.string
  rw [if_neg (by simp only [Option.getD_none]; omega)]
  rw [if_neg (by simp)]
  rw [if_neg (by
    simp only [stringBytes, Bool.false_eq_true, if_false, Option.getD_none]
    omega)]
  dsimp only
  simp only [stringBytes, Bool.false_eq_true, if_false]
  rw [writeNumber_tail (emptyBuilder e) (utf8Encode cps).length bits hlen rfl]
  dsimp only
  rw [writeBytes_tail_state _ _ (by simp [emptyBuilder, numBytes_length])
    (utf8Encode_lt256 cps hval)]
  dsimp only
  congr 1
  simp [emptyBuilder, numBytes_length]

theorem roundString_ok (bits : BitLength) (e : Endian) (cps : List Nat)
    (hne : cps ≠ [])
    (hval : ∀ c ∈ cps, c < 1114112)
    (hlen : (utf8Encode cps).length ≤ getMaxValue (some bits)) :
    roundString cps bits e =
      .ok (⟨numBytes bits e (utf8Encode cps).length ++ utf8Encode cps,
        bits.bytes + (utf8Encode cps).length, [(("x"), .str cps)], e⟩, .ok ()) := by
  have hpos : 1 ≤ (utf8Encode cps).length := by
    have h1 : 1 ≤ cps.length := by
      cases cps with
      | nil => exact absurd rfl hne
      | cons c cs => simp
    have := length_le_utf8Encode_length cps
    omega
  unfold roundString
  rw [string_lenPrefix_empty bits e cps hval hlen]
  dsimp only
  rw [build_tail _ _ _ _ (by simp [numBytes_length])]
  rw [parseStart_bytesToHex _ _ (by
    intro b hb
    rw [List.mem_append] at hb
    rcases hb with hb | hb
    · exact numBytes_lt256 bits e _ b hb
    · exact utf8Encode_lt256 cps hval b hb)]
  dsimp only
  unfold PduParser.stringRead
  dsimp only [Option.getD_some]
  rw [readNumber_at bits _ (utf8Encode cps).length (utf8Encode cps) hlen (by simp)]
  dsimp only
  rw [if_pos (by omega : (utf8Encode cps).length ≠ 0)]
  unfold PduParser.readUTF8
  rw [if_pos (by simp only [List.length_append, numBytes_length]; omega)]
  dsimp only
  rw [show (((numBytes bits e (utf8Encode cps).length ++ utf8Encode cps).drop
      (0 + bits.bytes)).take (utf8Encode cps).length) = utf8Encode cps from by
    rw [Nat.zero_add, show bits.bytes = (numBytes bits e (utf8Encode cps).length).length from
      (numBytes_length bits e _).symm]
    rw [List.drop_left, List.take_length]]
  rw [utf8Decode_encode cps hval]
  dsimp only
  unfold PduParser.parsePrim simpleReaderS
  dsimp only
  simp [assignRec, setK]

theorem string_nullTerm_empty (e : Endian) (cps : List Nat)
    (h0 : (0 : Nat) ∉ cps)
    (hval : ∀ c ∈ cps, c < 1114112)
    (hlen : (utf8Encode cps).length + 1 ≤ getMaxValue none) :
    PduBuilder.string (emptyBuilder e) cps {lengthBits := none, nullTerminate := true} =
      .ok ⟨utf8Encode cps ++ [0], (utf8Encode cps).length + 1, 0, [], e⟩ := by
  unfold PduBuilder.string
  rw [if_neg (by simp only [Option.getD_none]; omega)]
  rw [if_neg (by simp [h0])]
  rw [if_neg (by
    simp only [stringBytes, if_true, Option.getD_none, List.length_append,
      List.length_cons, List.length_nil]
    omega)]
  dsimp only
  simp only [stringBytes, if_true]
  rw [writeBytes_tail_state _ _ rfl (by
    intro b hb
    rw [List.mem_append] at hb
    rcases hb with hb | hb
    · exact utf8Encode_lt256 cps hval b hb
    · simp only [List.mem_singleton] at hb
      omega)]
  congr 1
  simp [emptyBuilder]

theorem roundStringNull_ok (e : Endian) (cps : List Nat)
    (h0 : (0 : Nat) ∉ cps)
    (hval : ∀ c ∈ cps, c < 1114112)
    (hlen : (utf8Encode cps).length + 1 ≤ getMaxValue none) :
    roundStringNull cps e =
      .ok (⟨utf8Encode cps ++ [0], (utf8Encode cps).length + 1, [(("x"), .str cps)], e⟩,
        .ok ()) := by
  unfold roundStringNull
  rw [string_nullTerm_empty e cps h0 hval hlen]
  dsimp only
  rw [build_tail _ _ _ _ (by simp)]
  rw [parseStart_bytesToHex _ _ (by
    intro b hb
    rw [List.mem_append] at hb
    rcases hb with hb | hb
    · exact utf8Encode_lt256 cps hval b hb
    · simp only [List.mem_singleton] at hb
      omega)]
  dsimp only
  unfold PduParser.stringRead
  dsimp only [Option.getD_some]
  rw [if_pos rfl]
  unfold PduParser.readCStr
  dsimp only
  rw [List.drop_zero]
  rw [show utf8Encode cps ++ [0] = utf8Encode cps ++ 0 :: [] from rfl]
  rw [findZero_append_of_not_mem _ (zero_not_mem_utf8Encode cps h0) []]
  dsimp only
  rw [List.take_left (utf8Encode cps) (0 :: [])]
  rw [utf8Decode_encode cps hval]
  dsimp only
  unfold PduParser.parsePrim simpleReaderS
  dsimp only
  simp [assignRec, setK]

theorem hexBytes_lenPrefix_empty (bits : BitLength) (e : Endian) (bs : List Nat)
    (hlt : ∀ b ∈ bs, b < 256) (hlen : bs.length ≤ getMaxValue (some bits)) :
    PduBuilder.hexBytes (emptyBuilder e) bs {lengthBits := some bits} =
      .ok ⟨numBytes bits e bs.length ++ bs, bits.bytes + bs.length, 0, [], e⟩ := by
  unfold PduBuilder.hexBytes
  rw [if_neg (by simp only [Option.getD_none]; omega)]
  dsimp only
  rw [writeNumber_tail (emptyBuilder e) bs.length bits hlen rfl]
  dsimp only
  by_cases hpos : bs.length > 0
  · rw [if_pos hpos]
    rw [writeBytes_tail_state _ _ (by simp [emptyBuilder, numBytes_length]) hlt]
    congr 1
    simp [emptyBuilder, numBytes_length]
  · rw [if_neg hpos]
    have hbs : bs = [] := by
      cases bs with
      | nil => rfl
      | cons x xs => simp at hpos
    subst hbs
    congr 1
    simp [emptyBuilder]

theorem roundHex_ok (bits : BitLength) (e : Endian) (bs : List Nat)
    (hlt : ∀ b ∈ bs, b < 256) (hlen : bs.length ≤ getMaxValue (some bits)) :
    roundHex bs bits e =
      .ok (⟨numBytes bits e bs.length ++ bs, bits.bytes + bs.length,
        [(("x"), .hexs (bytesToHex bs))], e⟩, .ok ()) := by
  unfold roundHex
  rw [hexBytes_lenPrefix_empty bits e bs hlt hlen]
  dsimp only
  rw [build_tail _ _ _ _ (by simp [numBytes_length])]
  rw [parseStart_bytesToHex _ _ (by
    intro b hb
    rw [List.mem_append] at hb
    rcases hb with hb | hb
    · exact numBytes_lt256 bits e _ b hb
    · exact hlt b hb)]
  dsimp only
  unfold PduParser.hexRead
  dsimp only [Option.getD_some]
  rw [readNumber_at bits _ bs.length bs hlen (by simp)]
  dsimp only
  by_cases hpos : bs.length > 0
  · rw [if_pos hpos]
    unfold PduParser.readBytesHex
    rw [if_pos (by simp only [List.length_append, numBytes_length]; omega)]
    dsimp only
    rw [show ((numBytes bits e bs.length ++ bs).drop (0 + bits.bytes)).take bs.length = bs from by
      rw [Nat.zero_add, show bits.bytes = (numBytes bits e bs.length).length from
        (numBytes_length bits e _).symm]
      rw [List.drop_left, List.take_length]]
    unfold PduParser.parsePrim simpleReaderH
    dsimp only
    simp [assignRec, setK]
  · rw [if_neg hpos]
    have hbs : bs = [] := by
      cases bs with
      | nil => rfl
      | cons x xs => simp at hpos
    subst hbs
    unfold PduParser.parsePrim simpleReaderH
    dsimp only
    simp [assignRec, setK, bytesToHex]

theorem writeByte_preserves_beyond (b : BState) (v : Nat) (j : Nat) (hj : j > b.offset) :
    (b.writeByte v).data[j]? = b.data[j]? := by
  unfold BState.writeByte
  dsimp only
  have htlen : (b.data.take b.offset).length = min b.offset b.data.length :=
    List.length_take _ _
  rw [List.append_assoc]
  rw [List.getElem?_append_right (by omega)]
  rcases le_or_lt b.offset b.data.length with hle | hlt
  · have h1 : (b.data.take b.offset).length = b.offset := by omega
    rw [h1]
    rw [show ([v % 256] ++ b.data.drop (b.offset + 1)) =
      (v % 256) :: b.data.drop (b.offset + 1) from rfl]
    rw [show j - b.offset = (j - b.offset - 1) + 1 from by omega]
    rw [List.getElem?_cons_succ]
    rw [List.getElem?_drop]
    congr 1
    omega
  · have h1 : (b.data.take b.offset).length = b.data.length := by omega
    have hdrop : b.data.drop (b.offset + 1) = [] := List.drop_eq_nil_of_le (by omega)
    rw [h1, hdrop]
    rw [List.getElem?_eq_none (by simp; omega)]
    rw [List.getElem?_eq_none (by omega)]

/-! ## Claim theorems -/

/-- Claim C1 (round-trip; code bug at the empty string): parsing the hex
string produced by the builder with the matching descriptor reconstructs the
value exactly for every in-range number (both endiannesses), every non-empty
UTF-8 string under a length prefix, every NUL-free UTF-8 string under null
termination, and every byte span under a length prefix; but for the empty
string with a length prefix the builder emits 00 and the parser raises
instead of yielding the empty string, because readString treats the decoded
length 0 as absent and scans for a null terminator. -/
theorem spec_c1_roundtrip :
    (emptyStringRound = .ok (⟨[0], 1, [], .big⟩,
      .error (.pduParserError ("Could not read string at position 1") 1)))
    ∧ (∀ (bits : BitLength) (e : Endian) (v : Nat), v ≤ getMaxValue (some bits) →
        ∃ t : PState, roundNum bits e (v : Int) = .ok (t, .ok ()) ∧
          lookupR t.value ("x") = some (.num v))
    ∧ (∀ (bits : BitLength) (e : Endian) (cps : List Nat), cps ≠ [] →
        (∀ c ∈ cps, c < 1114112) → (utf8Encode cps).length ≤ getMaxValue (some bits) →
        ∃ t : PState, roundString cps bits e = .ok (t, .ok ()) ∧
          lookupR t.value ("x") = some (.str cps))
    ∧ (∀ (e : Endian) (cps : List Nat), (0 : Nat) ∉ cps → (∀ c ∈ cps, c < 1114112) →
        (utf8Encode cps).length + 1 ≤ getMaxValue none →
        ∃ t : PState, roundStringNull cps e = .ok (t, .ok ()) ∧
          lookupR t.value ("x") = some (.str cps))
    ∧ (∀ (bits : BitLength) (e : Endian) (bs : List Nat), (∀ b ∈ bs, b < 256) →
        bs.length ≤ getMaxValue (some bits) →
        ∃ t : PState, roundHex bs bits e = .ok (t, .ok ()) ∧
          lookupR t.value ("x") = some (.hexs (bytesToHex bs))) := by
  refine ⟨rfl, ?_, ?_, ?_, ?_⟩
  · intro bits e v hv
    exact ⟨_, roundNum_ok bits e v hv, lookupR_head _ _ _⟩
  · intro bits e cps hne hval hlen
    exact ⟨_, roundString_ok bits e cps hne hval hlen, lookupR_head _ _ _⟩
  · intro e cps h0 hval hlen
    exact ⟨_, roundStringNull_ok e cps h0 hval hlen, lookupR_head _ _ _⟩
  · intro bits e bs hlt hlen
    exact ⟨_, roundHex_ok bits e bs hlt hlen, lookupR_head _ _ _⟩

/-- Witness for C1: the non-ASCII string åäö (code points 229, 228, 246)
round-trips through an 8-bit length prefix. -/
theorem spec_c1_roundtrip_witness :
    ∃ t : PState, roundString [229, 228, 246] .b8 .big = .ok (t, .ok ()) ∧
      lookupR t.value ("x") = some (.str [229, 228, 246]) :=
  spec_c1_roundtrip.2.2.1 .b8 .big [229, 228, 246] (by decide) (by decide) (by decide)

/-- Claim C2 (repeat failure semantics): a read failure during iteration i
of repeat with times = N and i < N raises the repeat-condition error; with
minTimes = m it raises when i < m and is absorbed (keeping the accumulated
record) when i ≥ m; on the sensor input, times = 4 decodes all four fields,
times = 5 fails, minTimes = 3 succeeds with all four fields, minTimes = 5
fails. -/
theorem spec_c2_repeat :
    (∀ (seq : RSeq) (n i : Nat) (s s' sF : PState) (e : PErr) (fuel : Nat),
      seqIter seq i s = some s' → seq s' = (sF, .err e) → i < n → i < fuel →
      PduParser.repeatRead {times := some n} seq fuel s =
        (sF, .error (.pduParserError ("Repeat sequence failed after " ++ toString i ++
          " iterations with condition times=" ++ toString n) sF.offset)))
    ∧ (∀ (seq : RSeq) (m i : Nat) (s s' sF : PState) (e : PErr) (fuel : Nat),
      seqIter seq i s = some s' → seq s' = (sF, .err e) → i < m → i < fuel →
      PduParser.repeatRead {minTimes := some m} seq fuel s =
        (sF, .error (.pduParserError ("Repeat sequence failed after " ++ toString i ++
          " iterations with condition minTimes=" ++ toString m) sF.offset)))
    ∧ (∀ (seq : RSeq) (m i : Nat) (s s' sF : PState) (e : PErr) (fuel : Nat),
      seqIter seq i s = some s' → seq s' = (sF, .err e) → m ≤ i → i < fuel →
      PduParser.repeatRead {minTimes := some m} seq fuel s = (sF, .ok ()))
    ∧ PduParser.parseStart ("0100e6021b0602bf070e43") = .ok sensorStart
    ∧ PduParser.repeatRead {times := some 4} variantSeq 12 sensorStart =
        (⟨sensorBytes, 11, sensorFields, .big⟩, .ok ())
    ∧ PduParser.repeatRead {times := some 5} variantSeq 12 sensorStart =
        (⟨sensorBytes, 11, sensorFields, .big⟩, .error (.pduParserError
          ("Repeat sequence failed after 4 iterations with condition times=5") 11))
    ∧ PduParser.repeatRead {minTimes := some 3} variantSeq 12 sensorStart =
        (⟨sensorBytes, 11, sensorFields, .big⟩, .ok ())
    ∧ PduParser.repeatRead {minTimes := some 5} variantSeq 12 sensorStart =
        (⟨sensorBytes, 11, sensorFields, .big⟩, .error (.pduParserError
          ("Repeat sequence failed after 4 iterations with condition minTimes=5") 11)) := by
  refine ⟨?_, ?_, ?_, rfl, rfl, rfl, rfl, rfl⟩
  · intro seq n i s s' sF e fuel hiter hfail hlt hfuel
    have hres := repeatAux_times_fail seq {times := some n} n rfl rfl i 0 s s' sF e fuel
      hiter hfail (by omega) hfuel
    rw [Nat.zero_add] at hres
    exact hres
  · intro seq m i s s' sF e fuel hiter hfail hlt hfuel
    have hres := repeatAux_minTimes seq {minTimes := some m} m rfl rfl rfl i 0 s s' sF e fuel
      hiter hfail hfuel
    rw [Nat.zero_add, if_pos hlt] at hres
    exact hres
  · intro seq m i s s' sF e fuel hiter hfail hge hfuel
    have hres := repeatAux_minTimes seq {minTimes := some m} m rfl rfl rfl i 0 s s' sF e fuel
      hiter hfail hfuel
    rw [Nat.zero_add, if_neg (by omega)] at hres
    exact hres

/-- Witness for C2: on the sensor input, the failing fifth iteration with
times = 5 raises the repeat-condition error through the general clause. -/
theorem spec_c2_repeat_witness :
    PduParser.repeatRead {times := some 5} variantSeq 12 sensorStart =
      (⟨sensorBytes, 11, sensorFields, .big⟩, .error (.pduParserError
        ("Repeat sequence failed after 4 iterations with condition times=5") 11)) :=
  spec_c2_repeat.1 variantSeq 5 4 sensorStart ⟨sensorBytes, 11, sensorFields, .big⟩
    ⟨sensorBytes, 11, sensorFields, .big⟩
    (.pduParserError ("Could not read uint8 at position 11") 11) 12
    (by rfl) (by rfl) (by decide) (by decide)

/-- Claim C3 (branching-read merge rule): when the reader callback of a
primitive read returns a mapping, it is merged into the record with
overwrite-wins per key; when it returns nothing, the merge step leaves the
record unchanged; when it returns the parser itself, no additional merge is
performed and the record holds only what nested reads already merged. -/
theorem spec_c3_merge :
    (∀ (α : Type) (f : Reader α) (data : α) (s t : PState) (u : Record),
      f data s.value s = (t, .merge u) →
        PduParser.parsePrim f data s = ({ t with value := assignRec t.value u }, .ok ()) ∧
        ((u.map Prod.fst).Nodup → ∀ k,
          lookupR (assignRec t.value u) k =
            if k ∈ u.map Prod.fst then lookupR u k else lookupR t.value k))
    ∧ (∀ (α : Type) (f : Reader α) (data : α) (s t : PState),
      f data s.value s = (t, .void) → PduParser.parsePrim f data s = (t, .ok ()))
    ∧ (∀ (α : Type) (f : Reader α) (data : α) (s t : PState),
      f data s.value s = (t, .self) → PduParser.parsePrim f data s = (t, .ok ())) := by
  refine ⟨?_, ?_, ?_⟩
  · intro α f data s t u h
    constructor
    · unfold PduParser.parsePrim
      rw [h]
    · intro hnd k
      exact lookupR_assignRec u hnd t.value k
  · intro α f data s t h
    unfold PduParser.parsePrim
    rw [h]
  · intro α f data s t h
    unfold PduParser.parsePrim
    rw [h]

/-- Witness for C3: a mapping-returning reader merges its record, at the
concrete reader that stores 7 under x. -/
theorem spec_c3_merge_witness :
    PduParser.parsePrim (simpleReaderN ("x")) 7 ⟨[], 0, [], .big⟩ =
      ({ (⟨[], 0, [], .big⟩ : PState) with
        value := assignRec (⟨[], 0, [], Endian.big⟩ : PState).value [(("x"), .num 7)] },
        .ok ()) :=
  (spec_c3_merge.1 Nat (simpleReaderN ("x")) 7 ⟨[], 0, [], .big⟩ ⟨[], 0, [], .big⟩
    [(("x"), .num 7)] (by rfl)).1

/-- Claim C4 (builder buffer invariant): every successful builder operation
leaves the logical length at least as large as before; repositioning the
cursor beyond the logical length fails; loadMark and end leave the cursor at
a position no greater than the logical length. -/
theorem spec_c4_builder_invariant :
    (∀ (op : BOp) (b b' : BState), applyOp op b = .ok b' → b.length ≤ b'.length)
    ∧ (∀ (b : BState) (pos : Nat), pos > b.length →
        b.setOffset pos = .error ("Cannot set position beyond current length"))
    ∧ (∀ (b : BState) (id : String) (b' : BState),
        PduBuilder.loadMark b id = .ok b' → b'.offset ≤ b'.length)
    ∧ (∀ (b b' : BState), PduBuilder.endOfBuf b = .ok b' → b'.offset ≤ b'.length) := by
  refine ⟨length_applyOp_le, setOffset_fail, ?_, ?_⟩
  · intro b id b' h
    unfold PduBuilder.loadMark at h
    split at h
    · cases h
    · exact (setOffset_ok_offset b _ b' h).2
  · intro b b' h
    exact (setOffset_ok_offset b _ b' h).2

/-- Witness for C4: a backpatching write at offset 0 of a two-byte buffer
keeps the logical length at 2. -/
theorem spec_c4_builder_invariant_witness :
    (⟨[65, 66], 0, 2, [], Endian.big⟩ : BState).length ≤
      ((⟨[65, 66], 0, 2, [], Endian.big⟩ : BState).writeByte 67).length := by
  have h : applyOp (.number .b8 [67]) ⟨[65, 66], 0, 2, [], .big⟩ =
      .ok ((⟨[65, 66], 0, 2, [], Endian.big⟩ : BState).writeByte 67) := by rfl
  exact spec_c4_builder_invariant.1 (.number .b8 [67]) _ _ h

/-- Claim C5 (backpatch correctness): the saveMark, placeholder write,
loadMark, overwrite, end chain of the test suite builds exactly
41420768656c6c6f2c20616263646500cafe00000003abcdef, the same byte sequence
as the fully linear chain, and an in-place overwrite never changes bytes
beyond the written position. -/
theorem spec_c5_backpatch :
    bookmarkBuild = .ok ("41420768656c6c6f2c20616263646500cafe00000003abcdef")
    ∧ linearBuild = .ok ("41420768656c6c6f2c20616263646500cafe00000003abcdef")
    ∧ (∀ (b : BState) (v j : Nat), j > b.offset →
        (b.writeByte v).data[j]? = b.data[j]?) :=
  ⟨rfl, rfl, writeByte_preserves_beyond⟩

/-- Witness for C5: overwriting offset 0 of a three-byte buffer leaves the
byte at offset 2 unchanged. -/
theorem spec_c5_backpatch_witness :
    ((⟨[65, 66, 67], 0, 3, [], Endian.big⟩ : BState).writeByte 97).data[2]? =
      (⟨[65, 66, 67], 0, 3, [], Endian.big⟩ : BState).data[2]? :=
  spec_c5_backpatch.2.2 ⟨[65, 66, 67], 0, 3, [], .big⟩ 97 2 (by decide)

/-- Claim C6 (numeric write range check): writeNumber fails with the range
error exactly when the value is negative or exceeds 2^bits - 1, and an
in-range write succeeds and advances the cursor by bits/8 bytes. -/
theorem spec_c6_write_range :
    ∀ (b : BState) (bits : BitLength) (v : Int),
      (PduBuilder.writeNumber b v bits =
          .error ("Invalid uint" ++ toString bits.bits ++ " value " ++ toString v) ↔
        (v < 0 ∨ v > (getMaxValue (some bits) : Int)))
      ∧ ((0 ≤ v ∧ v ≤ (getMaxValue (some bits) : Int)) →
          ∃ b', PduBuilder.writeNumber b v bits = .ok b' ∧
            b'.offset = b.offset + bits.bytes) := by
  intro b bits v
  constructor
  · constructor
    · intro h
      by_contra hcon
      unfold PduBuilder.writeNumber at h
      rw [if_neg hcon] at h
      cases h
    · intro hcon
      unfold PduBuilder.writeNumber
      rw [if_pos hcon]
  · intro hin
    refine ⟨b.writeBytes (numBytes bits b.endian v.toNat), ?_, ?_⟩
    · unfold PduBuilder.writeNumber
      rw [if_neg (by omega)]
    · rw [writeBytes_offset, numBytes_length]

/-- Witness for C6: writing 202 as a big-endian 16-bit word succeeds and
advances the cursor by two bytes. -/
theorem spec_c6_write_range_witness :
    ∃ b', PduBuilder.writeNumber (emptyBuilder .big) 202 .b16 = .ok b' ∧
      b'.offset = (emptyBuilder .big).offset + BitLength.bytes .b16 :=
  (spec_c6_write_range (emptyBuilder .big) .b16 202).2 (by decide)

/-- Counterexample to claim C7: Builder.string raises no configuration error
for the mode selection: with lengthBits = 0 and no null termination it
writes the bare UTF-8 bytes, and with both a nonzero length prefix and
null termination it writes a null-inclusive length prefix followed by the
bytes and the null, succeeding in both cases. -/
theorem spec_c7_counterexample :
    PduBuilder.string (emptyBuilder .big) [97, 98] {lengthBits := none} =
      .ok ⟨[97, 98], 2, 0, [], .big⟩
    ∧ PduBuilder.string (emptyBuilder .big) [97, 98] {nullTerminate := true} =
      .ok ⟨[3, 97, 98, 0], 4, 0, [], .big⟩ :=
  ⟨rfl, rfl⟩

/-- Claim C7 as amended: the neither-mode configuration error is raised by
the Parser's string read, not the Builder's write; Builder.string performs
no mode-exclusivity check, and it fails with the length error when the
encoded byte length falls outside [minLength, maxLength] under a valid
bounds configuration. -/
theorem spec_c7_amended :
    (∀ (s : PState) (r : Reader (List Nat)),
      PduParser.stringRead r {lengthBits? := some none} s =
        (s, .error (.pduParserError ("Cannot parse string without length or null terminator")
          s.offset)))
    ∧ (∀ (b : BState) (cps : List Nat) (o : BStringOpts),
        ¬(o.minLength < 0 ∨
            (o.maxLength?.getD (getMaxValue o.lengthBits) : Int) > (getMaxValue o.lengthBits : Int) ∨
            (o.maxLength?.getD (getMaxValue o.lengthBits) : Int) < o.minLength) →
        ¬(o.nullTerminate ∧ (0 : Nat) ∈ cps) →
        (((stringBytes cps o.nullTerminate).length : Int) < o.minLength ∨
          ((stringBytes cps o.nullTerminate).length : Int) >
            (o.maxLength?.getD (getMaxValue o.lengthBits) : Int)) →
        PduBuilder.string b cps o = .error ("Invalid string length " ++
          toString (stringBytes cps o.nullTerminate).length ++ "; expected [" ++
          toString o.minLength ++ ".." ++
          toString (o.maxLength?.getD (getMaxValue o.lengthBits) : Int) ++ "]")) := by
  constructor
  · intro s r
    rfl
  · intro b cps o h1 h2 h3
    unfold PduBuilder.string
    rw [if_neg h1, if_neg (by simpa using h2), if_pos h3]

/-- Witness for C7 amended: a three-byte string under an 8-bit length prefix
with maxLength 2 fails with the length error. -/
theorem spec_c7_amended_witness :
    PduBuilder.string (emptyBuilder .big) [97, 98, 99] {maxLength? := some 2} =
      .error ("Invalid string length " ++
        toString (stringBytes [97, 98, 99] false).length ++ "; expected [" ++
        toString (0 : Int) ++ ".." ++ toString (2 : Int) ++ "]") :=
  spec_c7_amended.2 (emptyBuilder .big) [97, 98, 99] {maxLength? := some 2}
    (by decide) (by decide) (by decide)

/-- Counterexample to claim C8: the builder raises the same range error
object at two different byte offsets, so builder errors do not carry the
offset at the point of violation. -/
theorem spec_c8_counterexample :
    PduBuilder.writeNumber (emptyBuilder .big) 256 .b8 = .error ("Invalid uint8 value 256")
    ∧ PduBuilder.writeNumber ⟨[65], 1, 0, [], .big⟩ 256 .b8 = .error ("Invalid uint8 value 256")
    ∧ (⟨[65], 1, 0, [], Endian.big⟩ : BState).offset ≠ (emptyBuilder .big).offset :=
  ⟨rfl, rfl, by decide⟩

/-- Claim C8 as amended: errors raised through the parser's fail
(PduParserError) carry the byte offset current at the point of violation —
out-of-data number, string and C-string reads, the string and hex
configuration failures, and the repeat-condition failures — while builder
errors are plain messages without an offset. -/
theorem spec_c8_amended :
    (∀ (bits : BitLength) (s t : PState) (e : PErr),
      PduParser.readNumber bits s = (t, .error e) → e.offset? = some s.offset ∧ t = s)
    ∧ (∀ (strlen : Nat) (s t : PState) (e : PErr),
      PduParser.readUTF8 strlen s = (t, .error e) → e.offset? = some s.offset ∧ t = s)
    ∧ (∀ (s t : PState) (e : PErr),
      PduParser.readCStr s = (t, .error e) → e.offset? = some s.offset ∧ t = s)
    ∧ (∀ (s : PState) (r : Reader (List Nat)),
      PduParser.stringRead r {lengthBits? := some none} s =
        (s, .error (.pduParserError ("Cannot parse string without length or null terminator")
          s.offset)))
    ∧ (∀ (s : PState) (r : Reader String),
      PduParser.hexRead r {lengthBits? := some none} s =
        (s, .error (.pduParserError ("Must provide length or length bits") s.offset)))
    ∧ (∀ (c : RepeatConds) (seq : RSeq) (fuel i : Nat) (s t : PState) (m : String) (o : Nat),
      PduParser.repeatAux c seq fuel i s = (t, .error (.pduParserError m o)) →
        o = t.offset) := by
  refine ⟨?_, ?_, ?_, ?_, ?_, ?_⟩
  · intro bits s t e h
    unfold PduParser.readNumber at h
    split at h
    · cases h
    · cases h
      exact ⟨rfl, rfl⟩
  · intro strlen s t e h
    unfold PduParser.readUTF8 at h
    split at h
    · split at h
      · cases h
      · cases h
        exact ⟨rfl, rfl⟩
    · cases h
      exact ⟨rfl, rfl⟩
  · intro s t e h
    unfold PduParser.readCStr at h
    split at h
    · split at h
      · cases h
      · cases h
        exact ⟨rfl, rfl⟩
    · cases h
      exact ⟨rfl, rfl⟩
  · intro s r
    rfl
  · intro s r
    rfl
  · intro c seq fuel
    induction fuel with
    | zero =>
      intro i s t m o h
      unfold PduParser.repeatAux at h
      cases h
    | succ fuel ih =>
      intro i s t m o h
      unfold PduParser.repeatAux at h
      split at h
      · cases h
      · cases hseq : seq s with
        | mk u res =>
          rw [hseq] at h
          cases res with
          | cont => exact ih (i + 1) u t m o h
          | stop => cases h
          | err e2 =>
            cases hct : c.times with
            | some n =>
              rw [hct] at h
              dsimp only at h
              split at h
              · cases h
                exact rfl
              · cases hcm : c.minTimes with
                | some mm =>
                  rw [hcm] at h
                  dsimp only at h
                  split at h
                  · cases h
                    exact rfl
                  · cases h
                | none =>
                  rw [hcm] at h
                  cases h
            | none =>
              rw [hct] at h
              dsimp only at h
              cases hcm : c.minTimes with
              | some mm =>
                rw [hcm] at h
                dsimp only at h
                split at h
                · cases h
                  exact rfl
                · cases h
              | none =>
                rw [hcm] at h
                cases h

/-- Witness for C8 amended: an out-of-data uint8 read at offset 0 of an
empty input fails with the offset 0 recorded in the PduParserError. -/
theorem spec_c8_amended_witness :
    (PErr.pduParserError ("Could not read uint8 at position 0") 0).offset? =
      some (⟨[], 0, [], Endian.big⟩ : PState).offset ∧
    (⟨[], 0, [], Endian.big⟩ : PState) = (⟨[], 0, [], Endian.big⟩ : PState) :=
  spec_c8_amended.1 .b8 ⟨[], 0, [], .big⟩ ⟨[], 0, [], .big⟩
    (.pduParserError ("Could not read uint8 at position 0") 0) (by rfl)

/-- Counterexample to claim C9: for the string consisting of the single
code point 0, Builder.string with a length prefix and null termination does
not write the described bytes; writeCString rejects strings that contain
NUL characters. -/
theorem spec_c9_counterexample :
    PduBuilder.string (emptyBuilder .big) [0] {nullTerminate := true} =
      .error ("Illegal str: Contains NULL-characters") :=
  rfl

/-- Claim C9 as amended: for every NUL-free string, Builder.string with a
nonzero length prefix and null termination writes a length word equal to
the UTF-8 byte length plus one (counting the terminating null), followed by
the UTF-8 bytes and a single zero byte, and the min/max validation applies
to this null-inclusive length. -/
theorem spec_c9_amended :
    ∀ (b : BState) (cps : List Nat) (bits : BitLength) (minL : Int) (maxL? : Option Int),
      (0 : Nat) ∉ cps →
      (∀ c ∈ cps, c < 1114112) →
      b.offset = b.data.length →
      ¬(minL < 0 ∨ (maxL?.getD (getMaxValue (some bits)) : Int) > (getMaxValue (some bits) : Int) ∨
          (maxL?.getD (getMaxValue (some bits)) : Int) < minL) →
      ((minL ≤ ((utf8Encode cps).length + 1 : Int) ∧
          ((utf8Encode cps).length + 1 : Int) ≤ (maxL?.getD (getMaxValue (some bits)) : Int)) →
        PduBuilder.string b cps
          {lengthBits := some bits, minLength := minL, maxLength? := maxL?, nullTerminate := true} =
          .ok { b with
            data := (b.data ++ numBytes bits b.endian ((utf8Encode cps).length + 1)) ++
              (utf8Encode cps ++ [0]),
            offset := b.offset + bits.bytes + ((utf8Encode cps).length + 1) })
      ∧ ((((utf8Encode cps).length + 1 : Int) < minL ∨
          ((utf8Encode cps).length + 1 : Int) > (maxL?.getD (getMaxValue (some bits)) : Int)) →
        PduBuilder.string b cps
          {lengthBits := some bits, minLength := minL, maxLength? := maxL?, nullTerminate := true} =
          .error ("Invalid string length " ++ toString ((utf8Encode cps).length + 1) ++
            "; expected [" ++ toString minL ++ ".." ++
            toString (maxL?.getD (getMaxValue (some bits)) : Int) ++ "]")) := by
  intro b cps bits minL maxL? h0 hval htail hcfg
  have hlen1 : (stringBytes cps true).length = (utf8Encode cps).length + 1 := by
    simp [stringBytes]
  constructor
  · intro hin
    unfold PduBuilder.string
    rw [if_neg hcfg]
    rw [if_neg (by simp [h0])]
    rw [if_neg (by
      rw [hlen1]
      push_cast
      omega)]
    dsimp only
    simp only [stringBytes, if_true]
    have hmax : (utf8Encode cps).length + 1 ≤ getMaxValue (some bits) := by
      rcases hin with ⟨hin1, hin2⟩
      have hb : (maxL?.getD (getMaxValue (some bits)) : Int) ≤ (getMaxValue (some bits) : Int) := by
        omega
      omega
    have hlen2 : (utf8Encode cps ++ [0]).length = (utf8Encode cps).length + 1 := by simp
    rw [hlen2]
    rw [writeNumber_tail b ((utf8Encode cps).length + 1) bits hmax htail]
    dsimp only
    rw [writeBytes_tail_state _ _ (by simp [numBytes_length, htail]) (by
      intro x hx
      rw [List.mem_append] at hx
      rcases hx with hx | hx
      · exact utf8Encode_lt256 cps hval x hx
      · simp only [List.mem_singleton] at hx
        omega)]
    dsimp only
    rw [hlen2]
  · intro hout
    unfold PduBuilder.string
    rw [if_neg hcfg]
    rw [if_neg (by simp [h0])]
    rw [if_pos (by
      rw [hlen1]
      push_cast
      omega)]
    rw [hlen1]

/-- Witness for C9 amended: the two-code-point string ab with an 8-bit
length prefix and null termination writes 03 61 62 00. -/
theorem spec_c9_amended_witness :
    PduBuilder.string (emptyBuilder .big) [97, 98]
        {lengthBits := some .b8, minLength := 0, maxLength? := none, nullTerminate := true} =
      .ok { (emptyBuilder .big) with
        data := ((emptyBuilder .big).data ++
          numBytes .b8 (emptyBuilder .big).endian ((utf8Encode [97, 98]).length + 1)) ++
          (utf8Encode [97, 98] ++ [0]),
        offset := (emptyBuilder .big).offset + BitLength.bytes .b8 +
          ((utf8Encode [97, 98]).length + 1) } :=
  (spec_c9_amended (emptyBuilder .big) [97, 98] .b8 0 none (by decide) (by decide) (by rfl)
    (by decide)).1 (by decide)

/-- Claim C10 (zero-length hex read): a Parser.hex call whose decoded length
prefix is 0, or whose explicit length is 0 without a length word, succeeds,
merges the empty string under the field, consumes nothing beyond the length
word, and never raises an out-of-data error for the empty payload. -/
theorem spec_c10_zero_length_hex :
    (∀ (bits : BitLength) (s t : PState) (name : String),
      PduParser.readNumber bits s = (t, .ok 0) →
        t.offset = s.offset + bits.bytes ∧
        PduParser.hexRead (simpleReaderH name) {lengthBits? := some (some bits)} s =
          ({ t with value := assignRec t.value [(name, .hexs (""))] }, .ok ()))
    ∧ (∀ (s : PState) (name : String),
      PduParser.hexRead (simpleReaderH name) {length? := some 0} s =
        ({ s with value := assignRec s.value [(name, .hexs (""))] }, .ok ())) := by
  constructor
  · intro bits s t name h
    have hoff : t.offset = s.offset + bits.bytes := by
      unfold PduParser.readNumber at h
      split at h
      · have h1 := congrArg Prod.fst h
        dsimp only at h1
        rw [← h1]
      · have h2 := congrArg Prod.snd h
        simp at h2
    refine ⟨hoff, ?_⟩
    unfold PduParser.hexRead
    dsimp only [Option.getD_some]
    rw [h]
    dsimp only
    rw [if_neg (by omega)]
    rfl
  · intro s name
    rfl

/-- Witness for C10: on the input consisting of the single length byte 00,
the hex read merges the empty string and stops after the length word. -/
theorem spec_c10_zero_length_hex_witness :
    (⟨[0], 1, [], Endian.big⟩ : PState).offset =
      (⟨[0], 0, [], Endian.big⟩ : PState).offset + BitLength.bytes .b8 ∧
    PduParser.hexRead (simpleReaderH ("x")) {lengthBits? := some (some .b8)}
        ⟨[0], 0, [], .big⟩ =
      ({ (⟨[0], 1, [], .big⟩ : PState) with
        value := assignRec (⟨[0], 1, [], Endian.big⟩ : PState).value [(("x"), .hexs (""))] },
        .ok ()) :=
  spec_c10_zero_length_hex.1 .b8 ⟨[0], 0, [], .big⟩ ⟨[0], 1, [], .big⟩ ("x") (by rfl)
